import Mathlib

/-!
# Verification of the CBOM frontend helper core (`src/frontend/src/helpers/cbom.js`)

This file gives a shallow embedding of the JavaScript helper module that the
CBOM frontend uses to validate documents, flatten detections, build the
dependency index and normalize the quantum-security assessment, and proves
the specified properties about it.

## Modelling conventions

* JavaScript JSON-like values are modelled by the inductive type `Json`
  (null, booleans, numbers, strings, arrays, objects).  Objects are ordered
  association lists with pairwise-distinct keys, which matches objects
  produced by `JSON.parse` and by the object literals in the source.
  Numbers are modelled as integers: no claim involves non-integral numbers
  and no arithmetic is performed on document values.
* JavaScript `undefined` is modelled as `Option.none`: a field read yields
  `Option Json`, and functions whose JS argument may be `undefined` take an
  `Option Json`.  `Json.null` models the JS value `null`.
* `a ?? b` (nullish coalescing) is `jcoal`, which falls through on both
  `none` (undefined) and `Json.null`.
* `Object.hasOwn(x, k)` throws a `TypeError` when `x` is `null` or
  `undefined`; fallible code paths are therefore modelled in
  `Except Unit`, with `Except.error ()` standing for a thrown exception.
* `JSON.parse(JSON.stringify(x))` is the identity on `Json` values (our
  values contain no `undefined`, functions or cycles), so the deep clone in
  the detection flattener is modelled as the identity on the value level;
  the *aliasing* consequences of cloning (or not cloning) are modelled
  separately and explicitly (see `flattenComponentProv`).
* JS `Map`s keyed by document values are modelled as ordered association
  lists with structural key equality.  JS compares object keys by identity,
  which structural equality coarsens; all keys arising in the claims and
  witnesses are primitives (strings), where the two notions agree.
-/

inductive Json : Type where
  | null : Json
  | bool : Bool → Json
  | num : Int → Json
  | str : String → Json
  | arr : List Json → Json
  | obj : List (String × Json) → Json
deriving Repr

namespace Json

/-- Structural equality test on `Json` values (mutual recursion over the
nested lists). -/
def beqJ : Json → Json → Bool
  | .null, .null => true
  | .bool a, .bool b => a == b
  | .num a, .num b => a == b
  | .str a, .str b => a == b
  | .arr a, .arr b => beqArr a b
  | .obj a, .obj b => beqObj a b
  | _, _ => false
where
  beqArr : List Json → List Json → Bool
    | [], [] => true
    | x :: xs, y :: ys => beqJ x y && beqArr xs ys
    | _, _ => false
  beqObj : List (String × Json) → List (String × Json) → Bool
    | [], [] => true
    | (k, x) :: xs, (l, y) :: ys => k == l && beqJ x y && beqObj xs ys
    | _, _ => false

mutual

theorem beqJ_refl : ∀ j : Json, beqJ j j = true
  | .null => rfl
  | .bool a => by simp [beqJ]
  | .num a => by simp [beqJ]
  | .str a => by simp [beqJ]
  | .arr a => by simpa [beqJ] using beqArr_refl a
  | .obj a => by simpa [beqJ] using beqObj_refl a

theorem beqArr_refl : ∀ l : List Json, beqJ.beqArr l l = true
  | [] => rfl
  | x :: xs => by simp [beqJ.beqArr, beqJ_refl x, beqArr_refl xs]

theorem beqObj_refl : ∀ l : List (String × Json), beqJ.beqObj l l = true
  | [] => rfl
  | (k, x) :: xs => by simp [beqJ.beqObj, beqJ_refl x, beqObj_refl xs]

end

mutual

theorem eq_of_beqJ : ∀ (a b : Json), beqJ a b = true → a = b
  | .null, .null, _ => rfl
  | .bool _, .bool _, h => by
      simp only [beqJ, beq_iff_eq] at h; rw [h]
  | .num _, .num _, h => by
      simp only [beqJ, beq_iff_eq] at h; rw [h]
  | .str _, .str _, h => by
      simp only [beqJ, beq_iff_eq] at h; rw [h]
  | .arr a, .arr b, h => by
      rw [eq_of_beqArr a b (by simpa [beqJ] using h)]
  | .obj a, .obj b, h => by
      rw [eq_of_beqObj a b (by simpa [beqJ] using h)]

theorem eq_of_beqArr : ∀ (a b : List Json), beqJ.beqArr a b = true → a = b
  | [], [], _ => rfl
  | x :: xs, y :: ys, h => by
      simp only [beqJ.beqArr, Bool.and_eq_true] at h
      rw [eq_of_beqJ x y h.1, eq_of_beqArr xs ys h.2]

theorem eq_of_beqObj : ∀ (a b : List (String × Json)), beqJ.beqObj a b = true → a = b
  | [], [], _ => rfl
  | (k, x) :: xs, (l, y) :: ys, h => by
      simp only [beqJ.beqObj, Bool.and_eq_true, beq_iff_eq] at h
      rw [h.1.1, eq_of_beqJ x y h.1.2, eq_of_beqObj xs ys h.2]

end

instance : DecidableEq Json := fun a b =>
  if h : beqJ a b = true then .isTrue (eq_of_beqJ a b h)
  else .isFalse (fun he => h (he ▸ beqJ_refl a))

/-- `Array.isArray`. -/
def isArr : Json → Bool
  | .arr _ => true
  | _ => false

/-- JS `typeof x === "object"` (true for plain objects, arrays and `null`). -/
def typeofObject : Json → Bool
  | .obj _ => true
  | .arr _ => true
  | .null => true
  | _ => false

/-- JS truthiness of a value. -/
def truthy : Json → Bool
  | .null => false
  | .bool b => b
  | .num n => n != 0
  | .str s => s ≠ ""
  | .arr _ => true
  | .obj _ => true

/-- First-match association lookup on an object's field list (JS objects
have no duplicate keys). -/
def lookupField : List (String × Json) → String → Option Json
  | [], _ => none
  | (k', v) :: fs, k => if k' = k then some v else lookupField fs k

/-- Member read `x.k` for a value that is not `null`/`undefined`:
`none` models the JS result `undefined` (missing key, or any non-object
receiver). Only the string keys used by the source are ever read, so the
array case (`undefined` for those keys) is faithful. -/
def jget : Json → String → Option Json
  | .obj fs, k => lookupField fs k
  | _, _ => none

/-- Member read defaulting to `Json.null`; used only where the source
guarantees the key is present (after a successful `Object.hasOwn`). -/
def jgetD (j : Json) (k : String) : Json := (jget j k).getD .null

/-- `Object.hasOwn(x, k)` for a non-null receiver.  Primitive receivers are
boxed by JS and own none of the keys the source queries; likewise arrays
(only non-index string keys are queried). -/
def hasOwnB : Json → String → Bool
  | .obj fs, k => (lookupField fs k).isSome
  | _, _ => false

/-- `Object.hasOwn(x, k)` including the `TypeError` thrown on a `null`
receiver. -/
def hasOwnE (j : Json) (k : String) : Except Unit Bool :=
  match j with
  | .null => .error ()
  | j => .ok (hasOwnB j k)

/-- `a ?? b` where `a` is a field read (`none` = `undefined`). -/
def jcoal (a : Option Json) (b : Json) : Json :=
  match a with
  | some v => if v = .null then b else v
  | none => b

/-- JS strict equality `s === j` where the left side is a string. -/
def strEq (s : String) (j : Json) : Bool :=
  match j with
  | .str t => s == t
  | _ => false

/-- `{...o, k: v}` / `o.k = v`: update key `k` in place when present,
append it otherwise (JS object property order semantics). -/
def objSet : Json → String → Json → Json
  | .obj fs, k, v => .obj (setField fs k v)
  | j, _, _ => j
where
  setField : List (String × Json) → String → Json → List (String × Json)
    | [], k, v => [(k, v)]
    | (k', w) :: fs, k, v =>
        if k' = k then (k, v) :: fs else (k', w) :: setField fs k v

end Json

/-! ## Path resolver (`resolvePath`, cbom.js lines 84–115)

`resolvePath(obj, path)` splits `path` on `'.'` and runs the inner
`traverse`.  `traverse` returns `undefined` (here `none`) when a segment is
missing on a plain object, and otherwise a flat array of leaves:

* path exhausted: a non-array value is wrapped in a singleton, an array is
  passed through unchanged;
* array node: `map(traverse).filter(≠ undefined).flat()` — i.e. traverse
  every element, drop the `undefined` results, concatenate (one level);
* plain object with the key present: descend; otherwise `undefined`;
* any other node with path remaining: `undefined`.

`traverseFields` is the object case's `hasOwn`/member-access on the field
list (JS objects have no duplicate keys, so first-match lookup agrees).
The source names the worker `traverse`; it is called `traverseJ` here
because plain `traverse` collides with a Mathlib export. -/

mutual

def traverseJ : Json → List String → Option (List Json)
  | .arr a, [] => some a
  | v, [] => some [v]
  | .arr items, k :: r => some (traverseList items (k :: r))
  | .obj fs, k :: r => traverseFields fs k r
  | _, _ :: _ => none

def traverseList : List Json → List String → List Json
  | [], _ => []
  | it :: rest, p =>
      (match traverseJ it p with
       | some l => l
       | none => []) ++ traverseList rest p

def traverseFields : List (String × Json) → String → List String → Option (List Json)
  | [], _, _ => none
  | (k', v) :: fs, k, r => if k' = k then traverseJ v r else traverseFields fs k r

end

/-- `path.split('.')` at the character level (`String.splitOn` itself does
not reduce in the kernel).  JS `"".split('.')` is `[""]`, `"a."` splits to
`["a", ""]`, matching this definition. -/
def splitDot (s : String) : List String :=
  (splitDotChars s.toList).map (fun cs => String.mk cs)
where
  splitDotChars : List Char → List (List Char)
    | [] => [[]]
    | c :: cs =>
        if c = '.' then [] :: splitDotChars cs
        else
          match splitDotChars cs with
          | [] => [[c]]
          | g :: gs => (c :: g) :: gs

def resolvePath (obj : Json) (path : String) : Option (List Json) :=
  traverseJ obj (splitDot path)

/-! Specification-side counting function for C6: the number of matching
leaves of a value under a path, summed across all array branches (zero for
a missing or untraversable branch; an array reached at path exhaustion
contributes one leaf per element, since the resolver splices it). -/

mutual

def countLeaves : Json → List String → Nat
  | .arr a, [] => a.length
  | _, [] => 1
  | .arr items, k :: r => countLeavesList items (k :: r)
  | .obj fs, k :: r => countLeavesFields fs k r
  | _, _ :: _ => 0

def countLeavesList : List Json → List String → Nat
  | [], _ => 0
  | it :: rest, p => countLeaves it p + countLeavesList rest p

def countLeavesFields : List (String × Json) → String → List String → Nat
  | [], _, _ => 0
  | (k', v) :: fs, k, r => if k' = k then countLeaves v r else countLeavesFields fs k r

end

/-! ## Quantum-security normalizer (cbom.js lines 3–11 and 389–534) -/

open Json

def NOT_ANALYSED_TEXT : String := "Not analysed"

/-- Shorthand for the sentinel value as a JSON string. -/
def NA : Json := .str NOT_ANALYSED_TEXT

structure VecDef where
  id : String
  name : String
  fullName : String
  description : String
deriving DecidableEq, Repr

def QUANTUM_VECTOR_DEFINITIONS : List VecDef :=
  [ ⟨"hndl", "HNDL", "Harvest-now-decrypt-later threat",
      "Analyses storage exposure in data at rest, traffic analysis exposure, and long-term data retention policies."⟩,
    ⟨"authentication", "Authentication", "Authentication threat",
      "Analyses digital signatures, certificate management, and multi-factor authentication."⟩,
    ⟨"kml", "KML", "Key management and lifecycle",
      "Analyses quantum robustness of key storage, rotation, destruction, and escrow policies."⟩,
    ⟨"thirdParty", "Third Party", "Dependency on third parties",
      "Analyses vendor quantum readiness, library dependencies, API security, and supply chain risks."⟩,
    ⟨"cryptoAgility", "Crypto Agility", "Cryptographic agility",
      "Analyses cryptographic abstraction layers, protocol flexibility, update mechanisms, and hybrid algorithms."⟩,
    ⟨"governance", "Compliance", "Governance and compliance",
      "Analyses compliance with NIST, CNSA 2.0, ETSI, ISO/IEC standards and breach detection processes."⟩ ]

/-- `{...def, status: NA, severity: NA, urgency: NA, notes: NA}` — one
entry of `defaultQuantumSecurity().vectors`. -/
def defaultVectorJson (d : VecDef) : Json :=
  .obj [("id", .str d.id), ("name", .str d.name), ("fullName", .str d.fullName),
        ("description", .str d.description),
        ("status", NA), ("severity", NA), ("urgency", NA), ("notes", NA)]

def defaultQtrlJson : Json :=
  .obj [("level", NA), ("name", NA), ("conditions", NA)]

def defaultVectorsJson : List Json :=
  QUANTUM_VECTOR_DEFINITIONS.map defaultVectorJson

def defaultScaleJson : Json :=
  .arr [.str "critical", .str "high", .str "medium", .str "low", .str "informational"]

def defaultRiskModelJson : Json :=
  .obj [("severityLevels", defaultScaleJson), ("urgencyLevels", defaultScaleJson), ("notes", NA)]

/-- `defaultQuantumSecurity()` (cbom.js lines 415–435). -/
def defaultQuantumSecurity : Json :=
  .obj [("qtrl", defaultQtrlJson), ("vectors", .arr defaultVectorsJson),
        ("riskModel", defaultRiskModelJson)]

/-- `normalizeQtrl(candidate, fallback)` (cbom.js lines 437–446).  The
fallback is always `defaultQuantumSecurity().qtrl`, which owns all three
keys, so `jgetD` never hits its default. -/
def normalizeQtrl (candidate : Option Json) (fallback : Json) : Json :=
  match candidate with
  | none => fallback
  | some c =>
      if !(truthy c) || !(typeofObject c) then fallback
      else
        .obj [("level", jcoal (jget c "level") (jgetD fallback "level")),
              ("name", jcoal (jget c "name") (jgetD fallback "name")),
              ("conditions", jcoal (jget c "conditions") (jgetD fallback "conditions"))]

/-- Association-list model of a JS `Map` over document values (see the
header note on key identity). -/
abbrev JMap := List (Json × Json)

def jmapGet : JMap → Json → Option Json
  | [], _ => none
  | (k, v) :: m, q => if k = q then some v else jmapGet m q

/-- `Map.set`: replace in place when the key exists, else append. -/
def jmapSet : JMap → Json → Json → JMap
  | [], k, v => [(k, v)]
  | (k', w) :: m, k, v => if k' = k then (k, v) :: m else (k', w) :: jmapSet m k v

/-- `{...base, name: vector.name ?? base.name, status: …, severity: …,
urgency: …, notes: …}` — all reads are from the original `base` (spread
evaluates its property values before constructing the object).  `base`
always owns the five keys, so `jgetD` never hits its default. -/
def spreadUpdateVec (base vector : Json) : Json :=
  let nm := jcoal (jget vector "name") (jgetD base "name")
  let st := jcoal (jget vector "status") (jgetD base "status")
  let sv := jcoal (jget vector "severity") (jgetD base "severity")
  let ur := jcoal (jget vector "urgency") (jgetD base "urgency")
  let nt := jcoal (jget vector "notes") (jgetD base "notes")
  objSet (objSet (objSet (objSet (objSet base "name" nm) "status" st) "severity" sv) "urgency" ur) "notes" nt

/-- `vector.id ?? vector.name ?? `vector-${merged.size + 1}`` — the merge
key of one candidate vector (`m.length` is `merged.size`; keys are
unique). -/
def mergeKey (m : JMap) (vector : Json) : Json :=
  jcoal (jget vector "id")
    (jcoal (jget vector "name") (.str ("vector-" ++ Nat.repr (m.length + 1))))

/-- The fresh base object used when the merge key is not in the map
(cbom.js lines 457–464). -/
def freshBase (id vector : Json) : Json :=
  .obj [("id", id), ("name", jcoal (jget vector "name") id),
        ("status", NA), ("severity", NA), ("urgency", NA), ("notes", NA)]

/-- The body of `candidateVectors.forEach(...)` in `normalizeVectors`
(cbom.js lines 452–473). -/
def mergeStep (m : JMap) (vector : Json) : JMap :=
  if !(truthy vector) || !(typeofObject vector) then m
  else
    let id := mergeKey m vector
    let base := (jmapGet m id).getD (freshBase id vector)
    jmapSet m id (spreadUpdateVec base vector)

/-- `normalizeVectors(candidateVectors, fallbackVectors)` (cbom.js lines
448–477).  `new Map(list)` sets the pairs sequentially; `{...vector}` is a
shallow copy, the identity at the value level.  The fallback vectors always
own an `id` (`jgetD`'s default is unreachable). -/
def normalizeVectors (candidateVectors : Option Json) (fallbackVectors : List Json) : List Json :=
  let merged : JMap :=
    fallbackVectors.foldl (fun m vector => jmapSet m (jgetD vector "id") vector) []
  let merged : JMap :=
    match candidateVectors with
    | some (.arr cands) => cands.foldl mergeStep merged
    | _ => merged
  merged.map (·.2)

/-- `normalizeRiskModel(candidate, fallback)` (cbom.js lines 479–492). -/
def normalizeRiskModel (candidate : Option Json) (fallback : Json) : Json :=
  match candidate with
  | none => fallback
  | some c =>
      if !(truthy c) || !(typeofObject c) then fallback
      else
        .obj [("severityLevels",
                 match jget c "severityLevels" with
                 | some (.arr l) => .arr l
                 | _ => jgetD fallback "severityLevels"),
              ("urgencyLevels",
                 match jget c "urgencyLevels" with
                 | some (.arr l) => .arr l
                 | _ => jgetD fallback "urgencyLevels"),
              ("notes", jcoal (jget c "notes") (jgetD fallback "notes"))]

/-- `getQuantumSecurityFromCbom(cbom)` (cbom.js lines 393–413), producing
the result object `{qtrl, vectors, riskModel}`.  The argument is
`Option Json` (`none` = JS `undefined`). -/
def getQuantumSecurityFromCbom (cbom : Option Json) : Json :=
  match cbom with
  | none => defaultQuantumSecurity
  | some c =>
      if !(truthy c) || !(typeofObject c) then defaultQuantumSecurity
      else
        match jget c "quantumSecurity" with
        | none => defaultQuantumSecurity
        | some q =>
            if !(truthy q) || !(typeofObject q) then defaultQuantumSecurity
            else
              .obj [("qtrl", normalizeQtrl (jget q "qtrl") defaultQtrlJson),
                    ("vectors", .arr (normalizeVectors (jget q "vectors") defaultVectorsJson)),
                    ("riskModel", normalizeRiskModel (jget q "riskModel") defaultRiskModelJson)]

def defaultAssessmentJson : Json :=
  .obj [("vector", NA), ("severity", NA), ("urgency", NA), ("notes", NA), ("vectorName", NA)]

/-- `getComponentQuantumAssessment(asset)` (cbom.js lines 500–534). -/
def getComponentQuantumAssessment (asset : Option Json) : Json :=
  match asset with
  | none => defaultAssessmentJson
  | some a =>
      if !(truthy a) || !(typeofObject a) then defaultAssessmentJson
      else
        match jget a "cryptoProperties" with
        | none => defaultAssessmentJson
        | some cp =>
            if !(truthy cp) || !(typeofObject cp) then defaultAssessmentJson
            else
              match jget cp "quantumAssessment" with
              | none => defaultAssessmentJson
              | some qa =>
                  if !(truthy qa) || !(typeofObject qa) then defaultAssessmentJson
                  else
                    let vectorId := jcoal (jget qa "vector") NA
                    let vectorDef := QUANTUM_VECTOR_DEFINITIONS.find? (fun v => strEq v.id vectorId)
                    let vectorName := match vectorDef with
                      | some d => Json.str d.name
                      | none => vectorId
                    .obj [("vector", vectorId),
                          ("severity", jcoal (jget qa "severity") NA),
                          ("urgency", jcoal (jget qa "urgency") NA),
                          ("notes", jcoal (jget qa "notes") NA),
                          ("vectorName", vectorName)]

/-- Index-paired enumeration of a list (the index argument of a JS
`forEach`/`map` callback), starting at `n`. -/
def enumListFrom {α : Type} (n : Nat) : List α → List (Nat × α)
  | [] => []
  | x :: l => (n, x) :: enumListFrom (n + 1) l

def enumList {α : Type} (l : List α) : List (Nat × α) := enumListFrom 0 l

/-- Sequential effectful map with abort-on-throw (`forEach` over fallible
bodies). -/
def mapME {α β : Type} (f : α → Except Unit β) : List α → Except Unit (List β)
  | [] => .ok []
  | x :: l =>
      match f x with
      | .error e => .error e
      | .ok y =>
          match mapME f l with
          | .error e => .error e
          | .ok ys => .ok (y :: ys)

/-- Sequential effectful fold with abort-on-throw (`for...of` over a
fallible body threading a state). -/
def foldlME {σ α : Type} (f : σ → α → Except Unit σ) : σ → List α → Except Unit σ
  | s, [] => .ok s
  | s, x :: l =>
      match f s x with
      | .error e => .error e
      | .ok s' => foldlME f s' l

instance {ε α : Type} [DecidableEq ε] [DecidableEq α] : DecidableEq (Except ε α)
  | .ok a, .ok b =>
      if h : a = b then .isTrue (by rw [h]) else .isFalse (fun he => by cases he; exact h rfl)
  | .ok _, .error _ => .isFalse (fun he => by cases he)
  | .error _, .ok _ => .isFalse (fun he => by cases he)
  | .error e, .error f =>
      if h : e = f then .isTrue (by rw [h]) else .isFalse (fun he => by cases he; exact h rfl)

/-! ## Document validator (`checkCbomValidity`, cbom.js lines 14–82)

The JS function returns nothing; its observable output is the pair of
signals raised at the end (`model.addError(ErrorStatus.IgnoredComponent)`
and `model.addError(ErrorStatus.InvalidCbom)`) plus the logged message
list.  `ValidityReport` captures the local state at function exit together
with whether the final reporting block (lines 75–81) was reached:
the early `return` at line 41 (taken when `components` is absent) skips
that block, so nothing is signalled on that path.  Exceptions
(`Object.hasOwn` on a `null` component) propagate to the caller. -/

structure ValidityReport where
  isValid : Bool
  errorMessages : List String
  isIgnoringSomeComponent : Bool
  /-- `false` exactly when the early `return` for a missing `components`
  key fired, skipping the final reporting block. -/
  completedReporting : Bool
deriving DecidableEq, Repr

/-- Whether `model.addError(ErrorStatus.InvalidCbom)` fires. -/
def ValidityReport.invalidCbomSignaled (r : ValidityReport) : Bool :=
  r.completedReporting && !r.isValid

/-- Whether `model.addError(ErrorStatus.IgnoredComponent)` fires. -/
def ValidityReport.ignoredComponentSignaled (r : ValidityReport) : Bool :=
  r.completedReporting && r.isIgnoringSomeComponent

/-- The four mandatory-field checks (cbom.js lines 23–38), in source
order. -/
def mandatoryFieldChecks (c : Json) : Bool × List String :=
  let r : Bool × List String := (true, [])
  let r := if !(hasOwnB c "bomFormat") then
      (false, r.2 ++ ["Missing mandatory field: bomFormat."]) else r
  let r := if !(hasOwnB c "specVersion") then
      (false, r.2 ++ ["Missing mandatory field: specVersion."]) else r
  let r := if !(hasOwnB c "serialNumber") then
      (false, r.2 ++ ["Missing mandatory field: serialNumber."]) else r
  let r := if !(hasOwnB c "version") then
      (false, r.2 ++ ["Missing mandatory field: version."]) else r
  r

/-- One iteration of `cbom.components.forEach` (cbom.js lines 46–71);
state is (isValid, errorMessages, isIgnoringSomeComponent).  A `null`
component makes `Object.hasOwn` throw; any other component is a legal
receiver for both `hasOwn` calls. -/
def checkComponentStep (index : Nat) (component : Json) (v : Bool) (msgs : List String)
    (ign : Bool) : Except Unit (Bool × List String × Bool) :=
  match component with
  | .null => .error ()
  | component =>
      if !(hasOwnB component "type") then
        .ok (false,
          msgs ++ ["Component at index " ++ Nat.repr index ++
            " is missing mandatory field: type."],
          ign)
      else if !(strEq "cryptographic-asset" (jgetD component "type")) then
        .ok (v, msgs, true)
      else if !(hasOwnB component "cryptoProperties") then
        .ok (false,
          msgs ++ ["Component at index " ++ Nat.repr index ++
            " is missing mandatory field: cryptoProperties."],
          ign)
      else .ok (v, msgs, ign)

def checkComponents : List (Nat × Json) → Bool → List String → Bool →
    Except Unit (Bool × List String × Bool)
  | [], v, msgs, ign => .ok (v, msgs, ign)
  | (i, comp) :: rest, v, msgs, ign =>
      match checkComponentStep i comp v msgs ign with
      | .error e => .error e
      | .ok (v', msgs', ign') => checkComponents rest v' msgs' ign'

/-- `checkCbomValidity(cbom)` (cbom.js lines 14–82). -/
def checkCbomValidity (cbom : Option Json) : Except Unit ValidityReport :=
  match cbom with
  | none => .ok ⟨false, ["CBOM is undefined or null."], false, true⟩
  | some .null => .ok ⟨false, ["CBOM is undefined or null."], false, true⟩
  | some c =>
      let (v, msgs) := mandatoryFieldChecks c
      if !(hasOwnB c "components") then
        -- "We can have a valid CBOM with no components" — the early
        -- `return` also skips the reporting block.
        .ok ⟨v, msgs, false, false⟩
      else
        match jgetD c "components" with
        | .arr comps =>
            (match checkComponents (enumList comps) v msgs false with
             | .error e => .error e
             | .ok (v', msgs', ign') => .ok ⟨v', msgs', ign', true⟩)
        | _ => .ok ⟨false, msgs ++ ["Components field is not an array."], false, true⟩

/-! ## Detection flattener (`getDetectionsFromCbom`, cbom.js lines 344–387)

Exceptions inside the `try` block (a `TypeError` from `Object.hasOwn` on a
`null` receiver, e.g. a component whose `evidence` is `null`) abort the
whole `forEach` and the `catch` returns `[]`. -/

/-- Evaluates the occurrence-branch condition (cbom.js lines 356–360):
`some os` when `component.evidence.occurrences` is a present array;
`none` selects the no-occurrence `else` branch.  A present-but-`null`
`evidence` makes `Object.hasOwn(component.evidence, "occurrences")` throw
(short-circuit: the second `hasOwn` only runs when the first succeeded). -/
def occurrencesOf (component : Json) : Except Unit (Option (List Json)) :=
  if hasOwnB component "evidence" then
    match jgetD component "evidence" with
    | .null => .error ()
    | ev =>
        if hasOwnB ev "occurrences" then
          match jgetD ev "occurrences" with
          | .arr os => .ok (some os)
          | _ => .ok none
        else .ok none
  else .ok none

/-- The deep clone with `evidence.occurrences` replaced by the singleton
`[singleContext]` (cbom.js lines 364–369); the JSON round-trip clone is the
identity at the value level. -/
def withSingleOccurrence (component occ : Json) : Json :=
  objSet component "evidence" (objSet (jgetD component "evidence") "occurrences" (.arr [occ]))

/-- One iteration of `cbom.components.forEach` (cbom.js lines 354–377):
the detections contributed by one component.  A `null` component makes
`Object.hasOwn(component, "type")` throw. -/
def flattenComponent (component : Json) : Except Unit (List Json) :=
  match component with
  | .null => .error ()
  | component =>
      if hasOwnB component "type" && strEq "cryptographic-asset" (jgetD component "type") then
        match occurrencesOf component with
        | .error e => .error e
        | .ok (some os) => .ok (os.map (fun occ => withSingleOccurrence component occ))
        | .ok none => .ok [component]
      else .ok []

/-- `getDetectionsFromCbom(cbom)` (cbom.js lines 344–387). -/
def getDetectionsFromCbom (cbom : Option Json) : List Json :=
  let r : Except Unit (List Json) :=
    match cbom with
    | none => .ok []
    | some .null => .ok []
    | some c =>
        if hasOwnB c "components" then
          match jgetD c "components" with
          | .arr comps =>
              (match mapME flattenComponent comps with
               | .error e => .error e
               | .ok dss => .ok dss.flatten)
          | _ => .ok []
        else .ok []
  match r with
  | .ok ds => ds
  | .error _ => []

/-- `name.split('@')[0]`: the characters before the first `'@'`. -/
def stripAtSuffix (s : String) : String :=
  String.mk (s.toList.takeWhile (fun c => c ≠ '@'))

/-- The per-detection body of `removeBomRefFromDetectionNames` (cbom.js
lines 335–339).  `detection.name.includes("@")` throws a `TypeError` when
`name` is `null`, a number, a boolean or a plain object (no `.includes`);
an array does have `.includes` (strict-equality element test), and the
subsequent `.split` then throws if it reported `true`. -/
def stripDetectionName (detection : Json) : Except Unit Json :=
  match detection with
  | .null => .error ()
  | detection =>
      if hasOwnB detection "name" then
        match jgetD detection "name" with
        | .str s =>
            if s.toList.contains '@' then
              .ok (objSet detection "name" (.str (stripAtSuffix s)))
            else .ok detection
        | .arr a => if a.contains (.str "@") then .error () else .ok detection
        | _ => .error ()
      else .ok detection

/-- `removeBomRefFromDetectionNames(detections)` (cbom.js lines 332–341);
the in-place `forEach` mutation at the value level. -/
def removeBomRefFromDetectionNames (detections : List Json) : Except Unit (List Json) :=
  mapME stripDetectionName detections

/-- `getDetections()` (cbom.js lines 324–330) on the non-scanning path,
with `model.cbom` passed explicitly: the flattened detections with the
`@`-suffix stripped from their names. -/
def getDetectionsR (cbom : Option Json) : Except Unit (List Json) :=
  removeBomRefFromDetectionNames (getDetectionsFromCbom cbom)

/-! ## Dependency graph builder (`setDependenciesMap`, cbom.js lines 118–214) -/

/-- `Map<ref, Array<[ref, path]>>` with the source's push-pair idiom. -/
abbrev EdgeList := List (Json × String)
abbrev DepMap := List (Json × EdgeList)

def depGet : DepMap → Json → Option EdgeList
  | [], _ => none
  | (k, l) :: m, q => if k = q then some l else depGet m q

/-- `if (!map.has(k)) map.set(k, []); map.get(k).push(e)`. -/
def pushEdge : DepMap → Json → Json × String → DepMap
  | [], k, e => [(k, [e])]
  | (k', l) :: m, k, e =>
      if k' = k then (k', l ++ [e]) :: m else (k', l) :: pushEdge m k e

structure DepMaps where
  dependsMap : DepMap
  isDependedOnMap : DepMap
  providesMap : DepMap
  isProvidedByMap : DepMap
  detectionsMap : JMap
deriving DecidableEq, Repr

def DepMaps.empty : DepMaps := ⟨[], [], [], [], []⟩

/-- The paired pushes into `dependsMap` and `isDependedOnMap` (cbom.js
lines 134–144 and 196–206). -/
def pushDependsEdge (st : DepMaps) (bomRef ref : Json) (path : String) : DepMaps :=
  { st with
    dependsMap := pushEdge st.dependsMap bomRef (ref, path),
    isDependedOnMap := pushEdge st.isDependedOnMap ref (bomRef, path) }

/-- The paired pushes into `providesMap` and `isProvidedByMap` (cbom.js
lines 149–161). -/
def pushProvidesEdge (st : DepMaps) (bomRef ref : Json) (path : String) : DepMaps :=
  { st with
    providesMap := pushEdge st.providesMap bomRef (ref, path),
    isProvidedByMap := pushEdge st.isProvidedByMap ref (bomRef, path) }

/-- The `dependsOn` block of a top-level dependency entry (cbom.js lines
132–146). -/
def addDependsOnTargets (st : DepMaps) (dep bomRef : Json) : DepMaps :=
  if hasOwnB dep "dependsOn" then
    match jgetD dep "dependsOn" with
    | .arr targets =>
        targets.foldl (fun s t => pushDependsEdge s bomRef t "dependencies.dependsOn") st
    | _ => st
  else st

/-- The `provides` block of a top-level dependency entry (cbom.js lines
149–163). -/
def addProvidesTargets (st : DepMaps) (dep bomRef : Json) : DepMaps :=
  if hasOwnB dep "provides" then
    match jgetD dep "provides" with
    | .arr targets =>
        targets.foldl (fun s t => pushProvidesEdge s bomRef t "dependencies.provides") st
    | _ => st
  else st

/-- One iteration of the top-level dependencies loop (cbom.js lines
127–165).  A `null` entry makes `Object.hasOwn(dep, "ref")` throw; a
non-null entry is a legal receiver for all three `hasOwn` calls. -/
def topDepStep (st : DepMaps) (dep : Json) : Except Unit DepMaps :=
  match dep with
  | .null => .error ()
  | dep =>
      if hasOwnB dep "ref" then
        .ok (addProvidesTargets (addDependsOnTargets st dep (jgetD dep "ref")) dep (jgetD dep "ref"))
      else .ok st

/-- The fixed catalog of reference-bearing attribute paths (cbom.js lines
177–190). -/
def dependencyPaths : List String :=
  [ "cryptoProperties.certificateProperties.signatureAlgorithmRef",
    "cryptoProperties.certificateProperties.subjectPublicKeyRef",
    "cryptoProperties.protocolProperties.cipherSuites.algorithms",
    "cryptoProperties.protocolProperties.ikev2TransformTypes.encr",
    "cryptoProperties.protocolProperties.ikev2TransformTypes.prf",
    "cryptoProperties.protocolProperties.ikev2TransformTypes.integ",
    "cryptoProperties.protocolProperties.ikev2TransformTypes.ke",
    "cryptoProperties.protocolProperties.ikev2TransformTypes.esn",
    "cryptoProperties.protocolProperties.ikev2TransformTypes.auth",
    "cryptoProperties.protocolProperties.cryptoRefArray",
    "cryptoProperties.relatedCryptoMaterialProperties.algorithmRef",
    "cryptoProperties.relatedCryptoMaterialProperties.securedBy.algorithmRef" ]

/-- One iteration of the detections loop (cbom.js lines 169–211):
register the detection by its `bom-ref` and push one depends edge per
resolved reference per catalog path.  (A `null` detection would make
`Object.hasOwn` throw; the flattener only emits non-null detections.) -/
def addImplicitEdges (st : DepMaps) (detection bomRef : Json) : DepMaps :=
  dependencyPaths.foldl
    (fun s path =>
      match resolvePath detection path with
      | some allRefs => allRefs.foldl (fun s2 ref => pushDependsEdge s2 bomRef ref path) s
      | none => s)
    st

def detStep (st : DepMaps) (detection : Json) : Except Unit DepMaps :=
  match detection with
  | .null => .error ()
  | detection =>
      if hasOwnB detection "bom-ref" then
        .ok (addImplicitEdges
          { st with
            detectionsMap := jmapSet st.detectionsMap (jgetD detection "bom-ref") detection }
          detection (jgetD detection "bom-ref"))
      else .ok st

/-- `setDependenciesMap(cbom)` (cbom.js lines 118–214): the value stored in
`model.dependencies`.  The detections come from `getDetections()` on the
loaded document (flattened, names stripped); any exception propagates.
(`Object.hasOwn(cbom, "dependencies")` throws on a `null` document.) -/
def setDependenciesMap (cbom : Json) : Except Unit DepMaps :=
  match cbom with
  | .null => .error ()
  | cbom =>
      let st := DepMaps.empty
      let st1 : Except Unit DepMaps :=
        if hasOwnB cbom "dependencies" then
          match jgetD cbom "dependencies" with
          | .arr deps => foldlME topDepStep st deps
          | _ => .ok st
        else .ok st
      match st1 with
      | .error e => .error e
      | .ok st =>
          match getDetectionsR (some cbom) with
          | .error e => .error e
          | .ok detections => foldlME detStep st detections

/-! ## Dependency query (`getDependencies`, cbom.js lines 216–266) -/

structure DependencyLists where
  dependsComponentList : List (Json × String)
  isDependedOnComponentList : List (Json × String)
  providesComponentList : List (Json × String)
  isProvidedByComponentList : List (Json × String)
deriving DecidableEq, Repr

/-- One of the four identical query loops (cbom.js lines 232–263): push
`[detectionsMap.get(ref), path]` for every recorded pair whose `ref` is a
known detection. -/
def collectKnown (detectionsMap : JMap) (refPathList : EdgeList) : List (Json × String) :=
  refPathList.foldl
    (fun acc rp =>
      match jmapGet detectionsMap rp.1 with
      | some c => acc ++ [(c, rp.2)]
      | none => acc)
    []

/-- `getDependencies(bomRef)` (cbom.js lines 216–266), with
`model.dependencies` passed explicitly. -/
def getDependencies (model : DepMaps) (bomRef : Json) : DependencyLists :=
  let dependsRefPathList := (depGet model.dependsMap bomRef).getD []
  let isDependedOnRefPathList := (depGet model.isDependedOnMap bomRef).getD []
  let providesRefPathList := (depGet model.providesMap bomRef).getD []
  let isProvidedByRefPathList := (depGet model.isProvidedByMap bomRef).getD []
  { dependsComponentList := collectKnown model.detectionsMap dependsRefPathList,
    isDependedOnComponentList := collectKnown model.detectionsMap isDependedOnRefPathList,
    providesComponentList := collectKnown model.detectionsMap providesRefPathList,
    isProvidedByComponentList := collectKnown model.detectionsMap isProvidedByRefPathList }

/-! ## Aliasing model of the flattener (for the frame/isolation claims)

`getDetectionsFromCbom` deep-clones a component per occurrence via
`JSON.parse(JSON.stringify(component))` — a fresh object graph — but then
executes `detectionWithSingleContext.evidence.occurrences = [singleContext]`
where `singleContext` is the occurrence object **of the source component
itself** (the `forEach` callback argument).  The detection's single
occurrence entry is therefore shared by reference with the source document.
In the no-occurrence branch the pushed detection **is** the source
component object (no clone at all).

`Det` pairs each detection value with this provenance:
`selfAlias = some i` when the detection is component `i` of the document
itself, and `occAlias = some (i, j)` when the detection's single occurrence
entry is occurrence `j` of component `i` of the document.  Mutating a
structure reached through a `some` alias mutates the loaded document. -/

structure Det where
  val : Json
  selfAlias : Option Nat
  occAlias : Option (Nat × Nat)
deriving DecidableEq, Repr

/-- `flattenComponent` with provenance: component `i`'s contribution. -/
def flattenComponentProv (i : Nat) (component : Json) : Except Unit (List Det) :=
  match component with
  | .null => .error ()
  | component =>
      if hasOwnB component "type" && strEq "cryptographic-asset" (jgetD component "type") then
        match occurrencesOf component with
        | .error e => .error e
        | .ok (some os) =>
            .ok ((enumList os).map (fun jo =>
              ⟨withSingleOccurrence component jo.2, none, some (i, jo.1)⟩))
        | .ok none => .ok [⟨component, some i, none⟩]
      else .ok []

/-- The `components` array of a loaded document (empty when missing or not
an array, mirroring the flattener's guard). -/
def componentsOf (cbom : Json) : List Json :=
  if hasOwnB cbom "components" then
    match jgetD cbom "components" with
    | .arr comps => comps
    | _ => []
  else []

/-- The flattener with provenance over a whole document (the `try` body of
`getDetectionsFromCbom`). -/
def detectionsProvOf (cbom : Json) : Except Unit (List Det) :=
  match mapME (fun ic => flattenComponentProv ic.1 ic.2) (enumList (componentsOf cbom)) with
  | .error e => .error e
  | .ok dss => .ok dss.flatten

/-- `getDetections()` together with its write-back effect on the loaded
document: the name stripping of `removeBomRefFromDetectionNames` mutates
each detection in place, and a detection with `selfAlias = some i` *is*
component `i` of `model.cbom`, so its stripped name is visible in the
document itself.  Returns the detection list and the document after the
mutation.  (Detections from the occurrence branch are clones at the top
level, so their name mutation does not reach the document; their shared
occurrence objects are never touched by name stripping.) -/
def getDetectionsResult (cbom : Json) : Except Unit (List Json × Json) :=
  match detectionsProvOf cbom with
  | .error e => .error e
  | .ok dets =>
      match mapME (fun d =>
          match stripDetectionName d.val with
          | .error e => .error e
          | .ok v => .ok (⟨v, d.selfAlias, d.occAlias⟩ : Det)) dets with
      | .error e => .error e
      | .ok stripped =>
          let comps := componentsOf cbom
          let comps' := (enumList comps).map (fun ic =>
            match stripped.find? (fun d => d.selfAlias = some ic.1) with
            | some d => d.val
            | none => ic.2)
          .ok (stripped.map (·.val), objSet cbom "components" (.arr comps'))

/-- The `vectors` array of a quantum-security result object. -/
def qsVectors (j : Json) : List Json :=
  match jget j "vectors" with
  | some (.arr l) => l
  | _ => []

/-! # Theorems -/

/-! ## C6 — path resolver: absent marker and leaf count -/

mutual

theorem traverseJ_length : ∀ (v : Json) (p : List String) (l : List Json),
    traverseJ v p = some l → l.length = countLeaves v p
  | .null, [], l, h => by
      simp only [traverseJ] at h; cases h; rfl
  | .bool b, [], l, h => by
      simp only [traverseJ] at h; cases h; rfl
  | .num n, [], l, h => by
      simp only [traverseJ] at h; cases h; rfl
  | .str s, [], l, h => by
      simp only [traverseJ] at h; cases h; rfl
  | .obj fs, [], l, h => by
      simp only [traverseJ] at h; cases h; rfl
  | .arr a, [], l, h => by
      simp only [traverseJ] at h; cases h; rfl
  | .arr items, k :: r, l, h => by
      simp only [traverseJ] at h; cases h
      simpa [countLeaves] using traverseList_length items (k :: r)
  | .obj fs, k :: r, l, h => by
      simp only [traverseJ] at h
      simpa [countLeaves] using traverseFields_length fs k r l h

theorem traverseJ_none : ∀ (v : Json) (p : List String),
    traverseJ v p = none → countLeaves v p = 0
  | .null, k :: r, _ => by simp [countLeaves]
  | .bool b, k :: r, _ => by simp [countLeaves]
  | .num n, k :: r, _ => by simp [countLeaves]
  | .str s, k :: r, _ => by simp [countLeaves]
  | .arr items, k :: r, h => by simp [traverseJ] at h
  | .obj fs, k :: r, h => by
      simp only [traverseJ] at h
      simpa [countLeaves] using traverseFields_none fs k r h
  | .null, [], h => by simp [traverseJ] at h
  | .bool b, [], h => by simp [traverseJ] at h
  | .num n, [], h => by simp [traverseJ] at h
  | .str s, [], h => by simp [traverseJ] at h
  | .arr a, [], h => by simp [traverseJ] at h
  | .obj fs, [], h => by simp [traverseJ] at h

theorem traverseList_length : ∀ (items : List Json) (p : List String),
    (traverseList items p).length = countLeavesList items p
  | [], p => rfl
  | it :: rest, p => by
      cases h : traverseJ it p with
      | some l =>
          simp [traverseList, h, countLeavesList,
            traverseJ_length it p l h, traverseList_length rest p]
      | none =>
          simp [traverseList, h, countLeavesList,
            traverseJ_none it p h, traverseList_length rest p]

theorem traverseFields_length : ∀ (fs : List (String × Json)) (k : String) (r : List String)
    (l : List Json), traverseFields fs k r = some l → l.length = countLeavesFields fs k r
  | [], k, r, l, h => by simp [traverseFields] at h
  | (k', v) :: fs, k, r, l, h => by
      by_cases hk : k' = k
      · simp only [traverseFields, hk, if_pos rfl] at h ⊢
        simp only [countLeavesFields, if_pos rfl]
        exact traverseJ_length v r l h
      · simp only [traverseFields, if_neg hk] at h
        simp only [countLeavesFields, if_neg hk]
        exact traverseFields_length fs k r l h

theorem traverseFields_none : ∀ (fs : List (String × Json)) (k : String) (r : List String),
    traverseFields fs k r = none → countLeavesFields fs k r = 0
  | [], k, r, _ => by simp [countLeavesFields]
  | (k', v) :: fs, k, r, h => by
      by_cases hk : k' = k
      · simp only [traverseFields, hk, if_pos rfl] at h
        simp only [countLeavesFields, hk, if_pos rfl]
        exact traverseJ_none v r h
      · simp only [traverseFields, if_neg hk] at h
        simp only [countLeavesFields, if_neg hk]
        exact traverseFields_none fs k r h

end

theorem traverseFields_lookup_none (fs : List (String × Json)) (k : String) (r : List String)
    (h : Json.lookupField fs k = none) : traverseFields fs k r = none := by
  induction fs with
  | nil => rfl
  | cons kv fs ih =>
      obtain ⟨k', v⟩ := kv
      by_cases hk : k' = k
      · simp [Json.lookupField, hk] at h
      · simp only [Json.lookupField, if_neg hk] at h
        simpa [traverseFields, if_neg hk] using ih h

/-- C6: on a plain object a missing next segment makes the resolver return
the absent marker `none` (which is distinct from `some []`), and on a
successful resolution the returned flat sequence has exactly one entry per
matching leaf across all array branches (`countLeaves`). -/
theorem C6_resolver_absent_marker_and_leaf_count :
    (∀ (fs : List (String × Json)) (k : String) (rest : List String),
        Json.hasOwnB (.obj fs) k = false →
          traverseJ (.obj fs) (k :: rest) = none ∧ traverseJ (.obj fs) (k :: rest) ≠ some []) ∧
    (∀ (obj : Json) (path : String) (l : List Json),
        resolvePath obj path = some l → l.length = countLeaves obj (splitDot path)) := by
  constructor
  · intro fs k rest h
    have hl : Json.lookupField fs k = none := by
      cases hc : Json.lookupField fs k with
      | none => rfl
      | some v => rw [Json.hasOwnB, hc] at h; cases h
    have : traverseJ (.obj fs) (k :: rest) = none := by
      simpa [traverseJ] using traverseFields_lookup_none fs k rest hl
    exact ⟨this, by simp [this]⟩
  · intro obj path l h
    exact traverseJ_length obj (splitDot path) l h

/-- Witness for C6 at concrete inputs: the key `"b"` is absent on
`{a: 1}` (absent marker), and `"a.b"` on `{a: [{b: 1}, {b: 2}, {}]}`
resolves to a sequence of length 2 = the number of matching leaves. -/
theorem C6_witness :
    traverseJ (.obj [("a", .num 1)]) ["b"] = none ∧
    resolvePath (.obj [("a", .arr [.obj [("b", .num 1)], .obj [("b", .num 2)], .obj []])]) "a.b"
      = some [.num 1, .num 2] ∧
    countLeaves (.obj [("a", .arr [.obj [("b", .num 1)], .obj [("b", .num 2)], .obj []])])
      (splitDot "a.b") = 2 := by
  refine ⟨(C6_resolver_absent_marker_and_leaf_count.1 [("a", .num 1)] "b" [] (by decide)).1,
    by decide, ?_⟩
  have h := C6_resolver_absent_marker_and_leaf_count.2
    (.obj [("a", .arr [.obj [("b", .num 1)], .obj [("b", .num 2)], .obj []])]) "a.b"
    [.num 1, .num 2] (by decide)
  simpa using h.symm

/-! ## C8 — null/undefined/non-object inputs and absent `quantumSecurity` -/

/-- The inputs named by C8: JS `undefined`, `null`, or a non-object value
(primitives; JS arrays are objects). -/
def nonObjectInput : Option Json → Bool
  | none => true
  | some .null => true
  | some (.bool _) => true
  | some (.num _) => true
  | some (.str _) => true
  | _ => false

/-- C8: for null/undefined/non-object inputs the flattener returns the
empty detection list and the normalizer returns the canonical default
quantum block, and the same default is returned when `quantumSecurity` is
absent from an object document.  Both modelled functions are total (the
guarded paths never reach a throwing operation), so no exception occurs.
The default block itself carries the six canonical ids with all four
assessment fields equal to the sentinel and the default scales. -/
theorem C8_non_object_inputs_default :
    (∀ cbom : Option Json, nonObjectInput cbom = true →
        getDetectionsFromCbom cbom = [] ∧
        getQuantumSecurityFromCbom cbom = defaultQuantumSecurity) ∧
    (∀ fs : List (String × Json), Json.hasOwnB (.obj fs) "quantumSecurity" = false →
        getQuantumSecurityFromCbom (some (.obj fs)) = defaultQuantumSecurity) ∧
    ((qsVectors defaultQuantumSecurity).map (fun v => Json.jget v "id")
        = QUANTUM_VECTOR_DEFINITIONS.map (fun d => some (.str d.id)) ∧
      (qsVectors defaultQuantumSecurity).all (fun v =>
        Json.jget v "status" = some NA && Json.jget v "severity" = some NA &&
        Json.jget v "urgency" = some NA && Json.jget v "notes" = some NA) = true ∧
      Json.jget defaultQuantumSecurity "riskModel" = some defaultRiskModelJson ∧
      Json.jget defaultRiskModelJson "severityLevels" = some defaultScaleJson ∧
      Json.jget defaultRiskModelJson "urgencyLevels" = some defaultScaleJson) := by
  refine ⟨?_, ?_, by decide⟩
  · intro cbom h
    match cbom with
    | none => exact ⟨rfl, rfl⟩
    | some .null => exact ⟨rfl, rfl⟩
    | some (.bool b) => exact ⟨rfl, by cases b <;> rfl⟩
    | some (.num n) =>
        refine ⟨rfl, ?_⟩
        simp only [getQuantumSecurityFromCbom, Json.truthy, Json.typeofObject]
        cases hn : (n != 0) <;> simp
    | some (.str s) =>
        refine ⟨rfl, ?_⟩
        simp only [getQuantumSecurityFromCbom, Json.truthy, Json.typeofObject]
        by_cases hs : s = "" <;> simp [hs]
    | some (.arr a) => cases h
    | some (.obj fs) => cases h
  · intro fs h
    have hl : Json.lookupField fs "quantumSecurity" = none := by
      cases hc : Json.lookupField fs "quantumSecurity" with
      | none => rfl
      | some v => rw [Json.hasOwnB, hc] at h; cases h
    simp [getQuantumSecurityFromCbom, Json.truthy, Json.typeofObject, Json.jget, hl]

/-- Witness for C8 at concrete inputs. -/
theorem C8_witness :
    nonObjectInput (some (.str "oops")) = true ∧
    getDetectionsFromCbom (some (.str "oops")) = [] ∧
    getQuantumSecurityFromCbom (some (.str "oops")) = defaultQuantumSecurity ∧
    getQuantumSecurityFromCbom (some (.obj [("bomFormat", .str "CycloneDX")]))
      = defaultQuantumSecurity := by
  refine ⟨by decide, (C8_non_object_inputs_default.1 (some (.str "oops")) (by decide)).1,
    (C8_non_object_inputs_default.1 (some (.str "oops")) (by decide)).2,
    C8_non_object_inputs_default.2.1 [("bomFormat", .str "CycloneDX")] (by decide)⟩

/-! ## C3 — the `{bomFormat:"CycloneDX"}` scenario

The validator computes `isValid = false` with exactly the three
missing-field messages, in order — but the early `return` taken because
`components` is absent (cbom.js line 41) skips the final reporting block,
so neither `console.error` nor `model.addError(ErrorStatus.InvalidCbom)`
runs: nothing is reported.  The claim (and §8 of the spec) describes the
collected result as reported; the code drops it, which contradicts the
evident intent of collecting the messages.  The detections are empty as
claimed. -/
theorem C3_validator_early_return_drops_report :
    checkCbomValidity (some (.obj [("bomFormat", .str "CycloneDX")])) =
      .ok ⟨false,
        ["Missing mandatory field: specVersion.",
         "Missing mandatory field: serialNumber.",
         "Missing mandatory field: version."],
        false, false⟩ ∧
    (checkCbomValidity (some (.obj [("bomFormat", .str "CycloneDX")]))).map
        ValidityReport.invalidCbomSignaled = .ok false ∧
    getDetectionsFromCbom (some (.obj [("bomFormat", .str "CycloneDX")])) = [] := by
  decide

/-! ## C7 — dependency query: known endpoints kept in order, dangling dropped -/

theorem collectKnown_go (dm : JMap) (l : EdgeList) (acc : List (Json × String)) :
    l.foldl
      (fun acc rp =>
        match jmapGet dm rp.1 with
        | some c => acc ++ [(c, rp.2)]
        | none => acc)
      acc
    = acc ++ l.filterMap (fun rp => (jmapGet dm rp.1).map (fun c => (c, rp.2))) := by
  induction l generalizing acc with
  | nil => simp
  | cons rp rest ih =>
      cases h : jmapGet dm rp.1 with
      | some c => simp [List.foldl, h, ih, List.filterMap_cons]
      | none => simp [List.foldl, h, ih, List.filterMap_cons]

theorem collectKnown_eq_filterMap (dm : JMap) (l : EdgeList) :
    collectKnown dm l = l.filterMap (fun rp => (jmapGet dm rp.1).map (fun c => (c, rp.2))) := by
  simpa using collectKnown_go dm l []

/-- C7: for every reference id, each of the four lists returned by
`getDependencies` is exactly the recorded `(related ref, origin path)` edge
list for that id, kept in recorded order, with each ref replaced by the
known component it resolves to in the detections map and with edges whose
far endpoint is unknown silently dropped (`filterMap` drops exactly the
`none` lookups; the function is total, so no error is raised). -/
theorem C7_getDependencies_known_endpoints (m : DepMaps) (bomRef : Json) :
    (getDependencies m bomRef).dependsComponentList
        = ((depGet m.dependsMap bomRef).getD []).filterMap
            (fun rp => (jmapGet m.detectionsMap rp.1).map (fun c => (c, rp.2))) ∧
    (getDependencies m bomRef).isDependedOnComponentList
        = ((depGet m.isDependedOnMap bomRef).getD []).filterMap
            (fun rp => (jmapGet m.detectionsMap rp.1).map (fun c => (c, rp.2))) ∧
    (getDependencies m bomRef).providesComponentList
        = ((depGet m.providesMap bomRef).getD []).filterMap
            (fun rp => (jmapGet m.detectionsMap rp.1).map (fun c => (c, rp.2))) ∧
    (getDependencies m bomRef).isProvidedByComponentList
        = ((depGet m.isProvidedByMap bomRef).getD []).filterMap
            (fun rp => (jmapGet m.detectionsMap rp.1).map (fun c => (c, rp.2))) :=
  ⟨collectKnown_eq_filterMap _ _, collectKnown_eq_filterMap _ _,
   collectKnown_eq_filterMap _ _, collectKnown_eq_filterMap _ _⟩


/-! ## C4 — dependency-index symmetry -/

/-- The recorded edge list of a map at a key (`map.get(k) || []`). -/
def edgesOf (m : DepMap) (k : Json) : EdgeList := (depGet m k).getD []

theorem edgesOf_pushEdge (m : DepMap) (k : Json) (e : Json × String) (q : Json) :
    edgesOf (pushEdge m k e) q = if q = k then edgesOf m q ++ [e] else edgesOf m q := by
  induction m with
  | nil =>
      by_cases hq : q = k
      · subst hq; simp [edgesOf, pushEdge, depGet]
      · have hq' : ¬ k = q := fun h => hq h.symm
        simp [edgesOf, pushEdge, depGet, hq, hq']
  | cons kv m ih =>
      obtain ⟨k', l⟩ := kv
      by_cases hk : k' = k
      · subst hk
        by_cases hq : q = k'
        · subst hq; simp [edgesOf, pushEdge, depGet]
        · have hq' : ¬ k' = q := fun h => hq h.symm
          simp [edgesOf, pushEdge, depGet, hq, hq']
      · by_cases hq : k' = q
        · subst hq
          simp [edgesOf, pushEdge, depGet, hk]
        · simpa [edgesOf, pushEdge, depGet, hk, hq] using ih

theorem mem_edgesOf_pushEdge (m : DepMap) (k : Json) (e : Json × String) (q : Json)
    (x : Json × String) :
    x ∈ edgesOf (pushEdge m k e) q ↔ x ∈ edgesOf m q ∨ (q = k ∧ x = e) := by
  rw [edgesOf_pushEdge]
  by_cases hq : q = k <;> simp [hq]

/-- Mirror invariant for a forward/backward map pair: every recorded
forward edge `(A, (B, P))` has the mirrored `(B, (A, P))` recorded. -/
def SymPair (fwd bwd : DepMap) : Prop :=
  ∀ A B P, (B, P) ∈ edgesOf fwd A → (A, P) ∈ edgesOf bwd B

theorem symPair_push {fwd bwd : DepMap} (h : SymPair fwd bwd) (a b : Json) (p : String) :
    SymPair (pushEdge fwd a (b, p)) (pushEdge bwd b (a, p)) := by
  intro A B P hm
  rw [mem_edgesOf_pushEdge] at hm
  rw [mem_edgesOf_pushEdge]
  rcases hm with hold | ⟨hA, hx⟩
  · exact Or.inl (h A B P hold)
  · cases hx
    exact Or.inr ⟨rfl, by rw [hA]⟩

/-- Both mirror invariants of the dependency index state. -/
def SymState (st : DepMaps) : Prop :=
  SymPair st.dependsMap st.isDependedOnMap ∧ SymPair st.providesMap st.isProvidedByMap

theorem symState_empty : SymState DepMaps.empty := by
  constructor <;> intro A B P hm <;> simp [edgesOf, DepMaps.empty, depGet] at hm

theorem symState_pushDepends {st : DepMaps} (h : SymState st) (a b : Json) (p : String) :
    SymState (pushDependsEdge st a b p) :=
  ⟨symPair_push h.1 a b p, h.2⟩

theorem symState_pushProvides {st : DepMaps} (h : SymState st) (a b : Json) (p : String) :
    SymState (pushProvidesEdge st a b p) :=
  ⟨h.1, symPair_push h.2 a b p⟩

theorem foldl_preserves {σ α : Type} (P : σ → Prop) (f : σ → α → σ)
    (hf : ∀ s x, P s → P (f s x)) : ∀ (l : List α) (s : σ), P s → P (l.foldl f s)
  | [], _, hp => hp
  | x :: l, s, hp => foldl_preserves P f hf l (f s x) (hf s x hp)

theorem foldlME_preserves {σ α : Type} (P : σ → Prop) (f : σ → α → Except Unit σ)
    (hf : ∀ s x s', f s x = .ok s' → P s → P s') :
    ∀ (l : List α) (s s' : σ), foldlME f s l = .ok s' → P s → P s'
  | [], s, s', h, hp => by
      simp only [foldlME] at h
      cases h; exact hp
  | x :: l, s, s', h, hp => by
      simp only [foldlME] at h
      cases hx : f s x with
      | error e => rw [hx] at h; cases h
      | ok s1 =>
          rw [hx] at h
          exact foldlME_preserves P f hf l s1 s' h (hf s x s1 hx hp)

theorem symState_addDependsOnTargets (st : DepMaps) (dep bomRef : Json) (hp : SymState st) :
    SymState (addDependsOnTargets st dep bomRef) := by
  unfold addDependsOnTargets
  split
  · split
    · exact foldl_preserves SymState _ (fun s x hs => symState_pushDepends hs _ _ _) _ _ hp
    · exact hp
  · exact hp

theorem symState_addProvidesTargets (st : DepMaps) (dep bomRef : Json) (hp : SymState st) :
    SymState (addProvidesTargets st dep bomRef) := by
  unfold addProvidesTargets
  split
  · split
    · exact foldl_preserves SymState _ (fun s x hs => symState_pushProvides hs _ _ _) _ _ hp
    · exact hp
  · exact hp

theorem symState_addImplicitEdges (st : DepMaps) (detection bomRef : Json) (hp : SymState st) :
    SymState (addImplicitEdges st detection bomRef) := by
  unfold addImplicitEdges
  apply foldl_preserves SymState _ _ _ _ hp
  intro s path hs
  split
  · exact foldl_preserves SymState _ (fun s2 r hs2 => symState_pushDepends hs2 _ _ _) _ _ hs
  · exact hs

theorem topDepStep_preserves (st : DepMaps) (dep : Json) (st' : DepMaps)
    (h : topDepStep st dep = .ok st') (hp : SymState st) : SymState st' := by
  cases dep with
  | null => simp [topDepStep] at h
  | _ =>
      simp only [topDepStep] at h
      split at h
      · cases h
        exact symState_addProvidesTargets _ _ _ (symState_addDependsOnTargets _ _ _ hp)
      · cases h; exact hp

theorem detStep_preserves (st : DepMaps) (det : Json) (st' : DepMaps)
    (h : detStep st det = .ok st') (hp : SymState st) : SymState st' := by
  cases det with
  | null => simp [detStep] at h
  | _ =>
      simp only [detStep] at h
      split at h
      · cases h
        exact symState_addImplicitEdges _ _ _ hp
      · cases h; exact hp

def depDemoR1 : Json :=
  .obj [("type", .str "cryptographic-asset"), ("bom-ref", .str "r1"),
        ("cryptoProperties",
          .obj [("relatedCryptoMaterialProperties", .obj [("algorithmRef", .str "r2")])])]

def depDemoR2 : Json :=
  .obj [("type", .str "cryptographic-asset"), ("bom-ref", .str "r2"),
        ("cryptoProperties", .obj [])]

def depDemoCbom : Json := .obj [("components", .arr [depDemoR1, depDemoR2])]

def algoRefPath : String := "cryptoProperties.relatedCryptoMaterialProperties.algorithmRef"

/-- C4: whenever `setDependenciesMap` completes on a document, every
recorded depends edge `(A, (B, P))` has its mirror `(B, (A, P))` in the
is-depended-on map, and likewise every provides edge in the is-provided-by
map; and on the r1/r2 scenario document the depends list of `r1` is
exactly `[(r2, algorithmRef path)]` while the is-depended-on list of `r2`
contains `(r1, same path)`. -/
theorem C4_dependency_index_symmetry :
    (∀ (cbom : Json) (maps : DepMaps), setDependenciesMap cbom = .ok maps →
        (∀ A B P, (B, P) ∈ edgesOf maps.dependsMap A →
            (A, P) ∈ edgesOf maps.isDependedOnMap B) ∧
        (∀ A B P, (B, P) ∈ edgesOf maps.providesMap A →
            (A, P) ∈ edgesOf maps.isProvidedByMap B)) ∧
    (setDependenciesMap depDemoCbom).map (fun m => edgesOf m.dependsMap (.str "r1"))
        = .ok [(.str "r2", algoRefPath)] ∧
    (setDependenciesMap depDemoCbom).map
        (fun m => decide ((Json.str "r1", algoRefPath) ∈ edgesOf m.isDependedOnMap (.str "r2")))
        = .ok true := by
  refine ⟨?_, by decide, by decide⟩
  intro cbom maps h
  cases cbom with
  | null => simp [setDependenciesMap] at h
  | _ =>
      simp only [setDependenciesMap] at h
      split at h
      · exact absurd h (by simp)
      · rename_i st hst1
        have hsym1 : SymState st := by
          split at hst1
          · split at hst1
            · exact foldlME_preserves SymState topDepStep topDepStep_preserves
                _ _ _ hst1 symState_empty
            · cases hst1; exact symState_empty
          · cases hst1; exact symState_empty
        split at h
        · exact absurd h (by simp)
        · exact foldlME_preserves SymState detStep detStep_preserves _ _ _ h hsym1

/-- Witness for C4: the symmetry theorem applied to the concrete r1/r2
scenario document, with the hypotheses discharged by computation. -/
theorem C4_witness :
    (Json.str "r1", algoRefPath) ∈
      edgesOf
        (DepMaps.mk
          [(Json.str "r1", [(Json.str "r2", algoRefPath)])]
          [(Json.str "r2", [(Json.str "r1", algoRefPath)])]
          [] []
          [(Json.str "r1", depDemoR1), (Json.str "r2", depDemoR2)]).isDependedOnMap
        (.str "r2") := by
  have h : setDependenciesMap depDemoCbom =
      .ok (DepMaps.mk
        [(Json.str "r1", [(Json.str "r2", algoRefPath)])]
        [(Json.str "r2", [(Json.str "r1", algoRefPath)])]
        [] []
        [(Json.str "r1", depDemoR1), (Json.str "r2", depDemoR2)]) := by decide
  exact (C4_dependency_index_symmetry.1 depDemoCbom _ h).1 (.str "r1") (.str "r2") algoRefPath
    (by decide)

/-! ## C10 — one implicit edge per flattened detection -/

/-- The C10 family: a cryptographic asset `b` with an arbitrary occurrence
list and a `relatedCryptoMaterialProperties.algorithmRef` pointing at
`r2`. -/
def c10comp (occs : List Json) : Json :=
  .obj [("type", .str "cryptographic-asset"), ("bom-ref", .str "b"),
        ("evidence", .obj [("occurrences", .arr occs)]),
        ("cryptoProperties",
          .obj [("relatedCryptoMaterialProperties", .obj [("algorithmRef", .str "r2")])])]

/-- The flattened detection of `c10comp` for one occurrence. -/
def c10det (occ : Json) : Json :=
  .obj [("type", .str "cryptographic-asset"), ("bom-ref", .str "b"),
        ("evidence", .obj [("occurrences", .arr [occ])]),
        ("cryptoProperties",
          .obj [("relatedCryptoMaterialProperties", .obj [("algorithmRef", .str "r2")])])]

def c10cbom (occs : List Json) : Json := .obj [("components", .arr [c10comp occs, depDemoR2])]

/-- What `detStep` does to any state on a `c10det` detection: register it
under `"b"` and push the one resolved `algorithmRef` edge. -/
def c10detStepPure (st : DepMaps) (occ : Json) : DepMaps :=
  pushDependsEdge
    { st with detectionsMap := jmapSet st.detectionsMap (.str "b") (c10det occ) }
    (.str "b") (.str "r2") algoRefPath

theorem detStep_c10det (st : DepMaps) (occ : Json) :
    detStep st (c10det occ) = .ok (c10detStepPure st occ) := rfl

theorem foldlME_c10dets : ∀ (occs : List Json) (st : DepMaps),
    foldlME detStep st (occs.map c10det) = .ok (occs.foldl c10detStepPure st)
  | [], st => rfl
  | occ :: rest, st => by
      simp only [List.map, foldlME, detStep_c10det, List.foldl]
      exact foldlME_c10dets rest (c10detStepPure st occ)

theorem c10fold_depends (occs : List Json) (st : DepMaps) (q : Json) :
    edgesOf (occs.foldl c10detStepPure st).dependsMap q
      = edgesOf st.dependsMap q
        ++ (if q = .str "b" then List.replicate occs.length (Json.str "r2", algoRefPath) else []) := by
  induction occs generalizing st with
  | nil => simp
  | cons occ rest ih =>
      simp only [List.foldl, List.length_cons]
      rw [ih]
      show edgesOf (pushEdge _ _ _) q ++ _ = _
      rw [edgesOf_pushEdge]
      by_cases hq : q = Json.str "b"
      · simp [hq, List.replicate_succ, List.append_assoc]
      · simp [hq]

theorem c10fold_isDependedOn (occs : List Json) (st : DepMaps) (q : Json) :
    edgesOf (occs.foldl c10detStepPure st).isDependedOnMap q
      = edgesOf st.isDependedOnMap q
        ++ (if q = .str "r2" then List.replicate occs.length (Json.str "b", algoRefPath) else []) := by
  induction occs generalizing st with
  | nil => simp
  | cons occ rest ih =>
      simp only [List.foldl, List.length_cons]
      rw [ih]
      show edgesOf (pushEdge _ _ _) q ++ _ = _
      rw [edgesOf_pushEdge]
      by_cases hq : q = Json.str "r2"
      · simp [hq, List.replicate_succ, List.append_assoc]
      · simp [hq]

theorem mapME_id_of {f : Json → Except Unit Json} :
    ∀ l : List Json, (∀ x ∈ l, f x = .ok x) → mapME f l = .ok l
  | [], _ => rfl
  | x :: l, h => by
      rw [mapME, h x (by simp), mapME_id_of l (fun y hy => h y (by simp [hy]))]

theorem foldlME_append {σ α : Type} (f : σ → α → Except Unit σ) :
    ∀ (l1 l2 : List α) (s : σ),
      foldlME f s (l1 ++ l2)
        = match foldlME f s l1 with
          | .error e => .error e
          | .ok s' => foldlME f s' l2
  | [], l2, s => by simp [foldlME]
  | x :: l1, l2, s => by
      simp only [List.cons_append, foldlME]
      cases f s x with
      | error e => rfl
      | ok s' => exact foldlME_append f l1 l2 s'

theorem c10_detections (occs : List Json) :
    getDetectionsR (some (c10cbom occs)) = .ok (occs.map c10det ++ [depDemoR2]) := by
  have hflat : getDetectionsFromCbom (some (c10cbom occs)) = occs.map c10det ++ [depDemoR2] := by
    show (match (match mapME flattenComponent [c10comp occs, depDemoR2] with
                 | .error e => .error e
                 | .ok dss => .ok dss.flatten : Except Unit (List Json)) with
          | .ok ds => ds
          | .error _ => []) = _
    rw [show mapME flattenComponent [c10comp occs, depDemoR2]
          = .ok [occs.map c10det, [depDemoR2]] by
        rw [mapME, show flattenComponent (c10comp occs) = .ok (occs.map c10det) from rfl]
        rfl]
    simp
  rw [getDetectionsR, hflat, removeBomRefFromDetectionNames]
  apply mapME_id_of
  intro x hx
  rcases List.mem_append.mp hx with hx | hx
  · obtain ⟨occ, _, rfl⟩ := List.mem_map.mp hx
    rfl
  · simp only [List.mem_singleton] at hx
    rw [hx]
    rfl

/-- The final dependency index for the C10 family. -/
def c10final (occs : List Json) : DepMaps :=
  let mid := occs.foldl c10detStepPure DepMaps.empty
  { mid with detectionsMap := jmapSet mid.detectionsMap (.str "r2") depDemoR2 }

/-- C10: for every occurrence list with `K ≥ 2` entries, the component
family `c10comp` (one reference-bearing `algorithmRef` attribute resolving
to `r2`) makes `setDependenciesMap` record exactly `K` duplicate
`(r2, algorithmRef path)` entries in the depends map under `b` — one per
flattened detection — and `K` mirrored `(b, path)` entries in the
is-depended-on map under `r2`. -/
theorem C10_per_detection_duplicate_edges (occs : List Json) (hK : 2 ≤ occs.length) :
    ∃ maps, setDependenciesMap (c10cbom occs) = .ok maps ∧
      edgesOf maps.dependsMap (.str "b")
        = List.replicate occs.length (Json.str "r2", algoRefPath) ∧
      edgesOf maps.isDependedOnMap (.str "r2")
        = List.replicate occs.length (Json.str "b", algoRefPath) := by
  have hset : setDependenciesMap (c10cbom occs)
      = foldlME detStep DepMaps.empty (occs.map c10det ++ [depDemoR2]) := by
    show (match (Except.ok DepMaps.empty : Except Unit DepMaps) with
          | .error e => Except.error e
          | .ok st =>
              match getDetectionsR (some (c10cbom occs)) with
              | .error e => Except.error e
              | .ok detections => foldlME detStep st detections) = _
    rw [c10_detections]
  have hlast : ∀ st : DepMaps, foldlME detStep st [depDemoR2]
      = .ok { st with detectionsMap := jmapSet st.detectionsMap (.str "r2") depDemoR2 } :=
    fun _ => rfl
  have hset2 : setDependenciesMap (c10cbom occs) = .ok (c10final occs) := by
    rw [hset, foldlME_append, foldlME_c10dets]
    exact hlast _
  refine ⟨c10final occs, hset2, ?_, ?_⟩
  · show edgesOf (occs.foldl c10detStepPure DepMaps.empty).dependsMap (.str "b")
        = List.replicate occs.length (Json.str "r2", algoRefPath)
    rw [c10fold_depends]
    simp [edgesOf, DepMaps.empty, depGet]
  · show edgesOf (occs.foldl c10detStepPure DepMaps.empty).isDependedOnMap (.str "r2")
        = List.replicate occs.length (Json.str "b", algoRefPath)
    rw [c10fold_isDependedOn]
    simp [edgesOf, DepMaps.empty, depGet]

/-- Witness for C10 at a concrete two-occurrence input. -/
theorem C10_witness :
    ∃ maps, setDependenciesMap (c10cbom [.obj [], .obj []]) = .ok maps ∧
      edgesOf maps.dependsMap (.str "b")
        = List.replicate 2 (Json.str "r2", algoRefPath) ∧
      edgesOf maps.isDependedOnMap (.str "r2")
        = List.replicate 2 (Json.str "b", algoRefPath) :=
  C10_per_detection_duplicate_edges [.obj [], .obj []] (by decide)

/-! ## Shared lemmas: object updates, enumeration, effectful maps -/

theorem lookupField_setField_self (fs : List (String × Json)) (k : String) (v : Json) :
    Json.lookupField (Json.objSet.setField fs k v) k = some v := by
  induction fs with
  | nil => simp [Json.objSet.setField, Json.lookupField]
  | cons kv fs ih =>
      obtain ⟨k', w⟩ := kv
      by_cases hk : k' = k
      · subst hk; simp [Json.objSet.setField, Json.lookupField]
      · simp [Json.objSet.setField, Json.lookupField, hk, ih]

theorem lookupField_setField_ne (fs : List (String × Json)) (k k' : String) (v : Json)
    (h : k ≠ k') : Json.lookupField (Json.objSet.setField fs k v) k'
      = Json.lookupField fs k' := by
  induction fs with
  | nil => simp [Json.objSet.setField, Json.lookupField, h]
  | cons kv fs ih =>
      obtain ⟨k0, w⟩ := kv
      by_cases hk : k0 = k
      · subst hk; simp [Json.objSet.setField, Json.lookupField, h]
      · by_cases hk' : k0 = k'
        · subst hk'; simp [Json.objSet.setField, Json.lookupField, hk]
        · simp [Json.objSet.setField, Json.lookupField, hk, hk', ih]

theorem jget_objSet_self (fs : List (String × Json)) (k : String) (v : Json) :
    Json.jget (Json.objSet (.obj fs) k v) k = some v := by
  simp [Json.objSet, Json.jget, lookupField_setField_self]

theorem jget_objSet_ne (j : Json) (k k' : String) (v : Json) (h : k ≠ k') :
    Json.jget (Json.objSet j k v) k' = Json.jget j k' := by
  cases j <;> simp [Json.objSet, Json.jget, lookupField_setField_ne _ _ _ _ h]

theorem hasOwnB_objSet_self (fs : List (String × Json)) (k : String) (v : Json) :
    Json.hasOwnB (Json.objSet (.obj fs) k v) k = true := by
  simp [Json.objSet, Json.hasOwnB, lookupField_setField_self]

theorem enumListFrom_get? {α : Type} (l : List α) :
    ∀ (n i : Nat), (enumListFrom n l).get? i = (l.get? i).map (fun x => (n + i, x)) := by
  induction l with
  | nil => intro n i; simp [enumListFrom]
  | cons x l ih =>
      intro n i
      cases i with
      | zero => simp [enumListFrom]
      | succ i =>
          simp only [enumListFrom, List.get?_cons_succ, ih (n + 1) i]
          cases l.get? i <;> simp [Nat.add_assoc, Nat.add_comm 1 i]

theorem enumList_get? {α : Type} (l : List α) (i : Nat) :
    (enumList l).get? i = (l.get? i).map (fun x => (i, x)) := by
  simpa using enumListFrom_get? l 0 i

theorem mapME_get? {α β : Type} (f : α → Except Unit β) :
    ∀ (l : List α) (ys : List β), mapME f l = .ok ys →
      ys.length = l.length ∧
      ∀ (i : Nat) (x : α), l.get? i = some x → ∃ y, ys.get? i = some y ∧ f x = .ok y
  | [], ys, h => by
      cases h
      exact ⟨rfl, fun i x hx => by simp at hx⟩
  | x :: l, ys, h => by
      rw [mapME] at h
      cases hx : f x with
      | error e => rw [hx] at h; cases h
      | ok y =>
          rw [hx] at h
          cases hrest : mapME f l with
          | error e => rw [hrest] at h; cases h
          | ok ys' =>
              rw [hrest] at h
              cases h
              obtain ⟨hlen, hget⟩ := mapME_get? f l ys' hrest
              refine ⟨by simp [hlen], fun i z hz => ?_⟩
              cases i with
              | zero =>
                  simp only [List.get?_cons_zero, Option.some.injEq] at hz
                  exact ⟨y, by simp, hz ▸ hx⟩
              | succ i =>
                  simp only [List.get?_cons_succ] at hz ⊢
                  exact hget i z hz

theorem mapME_mem {α β : Type} (f : α → Except Unit β) (l : List α) (ys : List β)
    (h : mapME f l = .ok ys) (x : α) (hx : x ∈ l) : ∃ y ∈ ys, f x = .ok y := by
  obtain ⟨i, hi⟩ := List.get?_of_mem hx
  obtain ⟨y, hy, hfy⟩ := (mapME_get? f l ys h).2 i x hi
  exact ⟨y, List.get?_mem hy, hfy⟩

theorem mapME_mem_rev {α β : Type} (f : α → Except Unit β) (l : List α) (ys : List β)
    (h : mapME f l = .ok ys) (y : β) (hy : y ∈ ys) : ∃ x ∈ l, f x = .ok y := by
  obtain ⟨i, hi⟩ := List.get?_of_mem hy
  cases hx : l.get? i with
  | none =>
      have hlen := (mapME_get? f l ys h).1
      have hlt : i < ys.length := (List.get?_eq_some.mp hi).1
      have hge : l.length ≤ i := List.get?_eq_none.mp hx
      rw [hlen] at hlt
      exact absurd hlt (Nat.not_lt.mpr hge)
  | some x =>
      obtain ⟨y', hy', hfy⟩ := (mapME_get? f l ys h).2 i x hx
      rw [hi] at hy'
      cases hy'
      exact ⟨x, List.get?_mem hx, hfy⟩

/-! ## C5 — flattener: per-occurrence detections, clone isolation -/

theorem hasOwnB_obj {j : Json} {k : String} (h : Json.hasOwnB j k = true) :
    ∃ fs, j = .obj fs := by
  cases j <;> simp [Json.hasOwnB] at h ⊢

/-- Decomposition of a successful occurrence-branch test. -/
theorem occurrencesOf_some_parts (component : Json) (os : List Json)
    (h : occurrencesOf component = .ok (some os)) :
    Json.hasOwnB component "evidence" = true ∧
    ∃ evfs, Json.jgetD component "evidence" = .obj evfs ∧
      Json.hasOwnB (.obj evfs) "occurrences" = true ∧
      Json.jgetD (.obj evfs) "occurrences" = .arr os := by
  unfold occurrencesOf at h
  split at h
  · rename_i hev
    split at h
    · simp at h
    · split at h
      · rename_i hocc
        split at h
        · rename_i harr
          have hos := h
          injection hos with h1
          injection h1 with h2
          obtain ⟨evfs, hfs⟩ := hasOwnB_obj hocc
          refine ⟨hev, evfs, hfs, ?_, ?_⟩
          · rw [← hfs]; exact hocc
          · rw [← hfs, harr, h2]
        · simp at h
      · simp at h
  · simp at h

def c5occ : Json := .obj [("line", .num 1)]

def c5emptyOccComp : Json :=
  .obj [("type", .str "cryptographic-asset"),
        ("evidence", .obj [("occurrences", .arr [])]),
        ("cryptoProperties", .obj [])]

def c5oneOccComp : Json :=
  .obj [("type", .str "cryptographic-asset"),
        ("evidence", .obj [("occurrences", .arr [c5occ])]),
        ("cryptoProperties", .obj [])]

def c5noOccComp : Json :=
  .obj [("type", .str "cryptographic-asset"), ("cryptoProperties", .obj [])]

/-- C5 counterexample.  Two refutations at concrete inputs:
(1) a cryptographic-asset component with *zero* occurrences — a present but
empty `evidence.occurrences` array — makes the flattener emit **no**
detection, not "exactly 1 detection identical to the source";
(2) for a component with one occurrence, the emitted detection's single
occurrence entry is the source component's occurrence object itself
(provenance `occAlias = some (0, 0)`, not `none`): by JS reference
semantics, mutating `detection.evidence.occurrences[0]` mutates the source
document, so the detection is not isolated from the source as claimed. -/
theorem C5_counterexample :
    flattenComponent c5emptyOccComp = .ok [] ∧
    flattenComponent c5emptyOccComp ≠ .ok [c5emptyOccComp] ∧
    (flattenComponentProv 0 c5oneOccComp).map (List.map Det.occAlias) = .ok [some (0, 0)] ∧
    (flattenComponentProv 0 c5oneOccComp).map (List.map Det.occAlias) ≠ .ok [none] := by
  refine ⟨by decide, by decide, by decide, by decide⟩

theorem flattenComponent_withOcc (component : Json) (os : List Json)
    (hty : Json.hasOwnB component "type" = true)
    (hcr : Json.strEq "cryptographic-asset" (Json.jgetD component "type") = true)
    (hocc : occurrencesOf component = .ok (some os)) :
    flattenComponent component = .ok (os.map (withSingleOccurrence component)) := by
  obtain ⟨fs, rfl⟩ := hasOwnB_obj hty
  simp [flattenComponent, hty, hcr, hocc]

theorem flattenComponentProv_withOcc (i : Nat) (component : Json) (os : List Json)
    (hty : Json.hasOwnB component "type" = true)
    (hcr : Json.strEq "cryptographic-asset" (Json.jgetD component "type") = true)
    (hocc : occurrencesOf component = .ok (some os)) :
    flattenComponentProv i component
      = .ok ((enumList os).map (fun jo =>
          ⟨withSingleOccurrence component jo.2, none, some (i, jo.1)⟩)) := by
  obtain ⟨fs, rfl⟩ := hasOwnB_obj hty
  simp [flattenComponentProv, hty, hcr, hocc]

theorem flattenComponent_noOcc (component : Json)
    (hty : Json.hasOwnB component "type" = true)
    (hcr : Json.strEq "cryptographic-asset" (Json.jgetD component "type") = true)
    (hocc : occurrencesOf component = .ok none) :
    flattenComponent component = .ok [component] := by
  obtain ⟨fs, rfl⟩ := hasOwnB_obj hty
  simp [flattenComponent, hty, hcr, hocc]

theorem flattenComponentProv_noOcc (i : Nat) (component : Json)
    (hty : Json.hasOwnB component "type" = true)
    (hcr : Json.strEq "cryptographic-asset" (Json.jgetD component "type") = true)
    (hocc : occurrencesOf component = .ok none) :
    flattenComponentProv i component = .ok [⟨component, some i, none⟩] := by
  obtain ⟨fs, rfl⟩ := hasOwnB_obj hty
  simp [flattenComponentProv, hty, hcr, hocc]

/-- C5 (amended): for a cryptographic-asset component whose
`evidence.occurrences` is a present array `os`, the flattener emits exactly
`os.length` detections, in source occurrence order; detection `j` is the
component with its occurrence list replaced by the singleton of occurrence
`j` and is otherwise content-identical to the source (every key other than
`evidence` reads equal, and its `evidence.occurrences` is exactly that one
occurrence).  The detection's top level is a fresh clone, but its single
occurrence entry is the source's occurrence object (`occAlias = some
(i, j)`), so mutating it mutates the source (and only the source — each
detection carries a different occurrence slot).  A component with a
present-but-empty occurrence array emits no detection (`os = []` gives the
empty map), and a component without a well-formed occurrence array emits
exactly one detection that *is* the source component object
(`selfAlias = some i`). -/
theorem C5_flattener_amended :
    (∀ (component : Json) (i : Nat) (os : List Json),
        Json.hasOwnB component "type" = true →
        Json.strEq "cryptographic-asset" (Json.jgetD component "type") = true →
        occurrencesOf component = .ok (some os) →
        flattenComponent component = .ok (os.map (withSingleOccurrence component)) ∧
        (os.map (withSingleOccurrence component)).length = os.length ∧
        flattenComponentProv i component
          = .ok ((enumList os).map (fun jo =>
              ⟨withSingleOccurrence component jo.2, none, some (i, jo.1)⟩)) ∧
        (∀ o k, k ≠ "evidence" →
            Json.jget (withSingleOccurrence component o) k = Json.jget component k) ∧
        (∀ o, occurrencesOf (withSingleOccurrence component o) = .ok (some [o]))) ∧
    (∀ (component : Json) (i : Nat),
        Json.hasOwnB component "type" = true →
        Json.strEq "cryptographic-asset" (Json.jgetD component "type") = true →
        occurrencesOf component = .ok none →
        flattenComponent component = .ok [component] ∧
        flattenComponentProv i component = .ok [⟨component, some i, none⟩]) := by
  constructor
  · intro component i os hty hcr hocc
    refine ⟨flattenComponent_withOcc component os hty hcr hocc, by simp,
      flattenComponentProv_withOcc i component os hty hcr hocc, ?_, ?_⟩
    · intro o k hk
      exact jget_objSet_ne component "evidence" k _ (fun h => hk h.symm)
    · intro o
      obtain ⟨hev, evfs, hevv, hoccown, harr⟩ := occurrencesOf_some_parts component os hocc
      obtain ⟨fs, rfl⟩ := hasOwnB_obj hev
      have h1 : withSingleOccurrence (.obj fs) o
          = Json.objSet (.obj fs) "evidence"
              (.obj (Json.objSet.setField evfs "occurrences" (.arr [o]))) := by
        rw [withSingleOccurrence, hevv]
        rfl
      rw [h1]
      have h2 : Json.hasOwnB (Json.objSet (.obj fs) "evidence"
          (.obj (Json.objSet.setField evfs "occurrences" (.arr [o])))) "evidence" = true :=
        hasOwnB_objSet_self fs "evidence" _
      have h3 : Json.jgetD (Json.objSet (.obj fs) "evidence"
          (.obj (Json.objSet.setField evfs "occurrences" (.arr [o])))) "evidence"
          = .obj (Json.objSet.setField evfs "occurrences" (.arr [o])) := by
        rw [Json.jgetD, jget_objSet_self]
        rfl
      rw [occurrencesOf, if_pos h2, h3]
      simp only [Json.hasOwnB, Json.jgetD, Json.jget, lookupField_setField_self,
        Option.isSome_some, if_pos]
      rfl
  · intro component i hty hcr hocc
    exact ⟨flattenComponent_noOcc component hty hcr hocc,
      flattenComponentProv_noOcc i component hty hcr hocc⟩

/-- Witness for C5's amended theorem at concrete inputs: the one-occurrence
component yields exactly its one single-occurrence detection, and a
component without an occurrence array yields itself as the sole (aliased)
detection. -/
theorem C5_witness :
    flattenComponent c5oneOccComp = .ok [withSingleOccurrence c5oneOccComp c5occ] ∧
    flattenComponentProv 7 c5noOccComp = .ok [⟨c5noOccComp, some 7, none⟩] := by
  constructor
  · exact (C5_flattener_amended.1 c5oneOccComp 0 [c5occ] (by decide) (by decide) (by decide)).1
  · exact (C5_flattener_amended.2 c5noOccComp 7 (by decide) (by decide) (by decide)).2

/-! ## C9 — zero-occurrence detections alias the loaded document -/

theorem flattenComponentProv_selfAlias (i : Nat) (c : Json) (l : List Det)
    (h : flattenComponentProv i c = .ok l) (d : Det) (hd : d ∈ l) :
    d.selfAlias = none ∨
      (d.val = c ∧ d.selfAlias = some i ∧ d.occAlias = none ∧ l = [⟨c, some i, none⟩]) := by
  cases c with
  | null => simp [flattenComponentProv] at h
  | _ =>
      simp only [flattenComponentProv] at h
      split at h
      · split at h
        · simp at h
        · rename_i os _
          injection h with h1
          subst h1
          obtain ⟨jo, _, rfl⟩ := List.mem_map.mp hd
          exact Or.inl rfl
        · injection h with h1
          subst h1
          simp only [List.mem_singleton] at hd
          subst hd
          exact Or.inr ⟨rfl, rfl, rfl, rfl⟩
      · injection h with h1
        subst h1
        simp at hd

theorem detectionsProv_parts (cbom : Json) (dets : List Det)
    (h : detectionsProvOf cbom = .ok dets) :
    ∃ dss, mapME (fun ic => flattenComponentProv ic.1 ic.2) (enumList (componentsOf cbom))
        = .ok dss ∧ dets = dss.flatten := by
  unfold detectionsProvOf at h
  split at h
  · simp at h
  · rename_i dss hdss
    injection h with h1
    exact ⟨dss, hdss, h1.symm⟩

theorem mapME_get?_rev {α β : Type} (f : α → Except Unit β) (l : List α) (ys : List β)
    (h : mapME f l = .ok ys) (i : Nat) (y : β) (hy : ys.get? i = some y) :
    ∃ x, l.get? i = some x ∧ f x = .ok y := by
  cases hx : l.get? i with
  | none =>
      have hlen := (mapME_get? f l ys h).1
      have hlt : i < ys.length := (List.get?_eq_some.mp hy).1
      have hge : l.length ≤ i := List.get?_eq_none.mp hx
      rw [hlen] at hlt
      exact absurd hlt (Nat.not_lt.mpr hge)
  | some x =>
      obtain ⟨y', hy', hfy⟩ := (mapME_get? f l ys h).2 i x hx
      rw [hy] at hy'
      injection hy' with hyy
      exact ⟨x, rfl, hyy ▸ hfy⟩

/-- Any detection marked as self-aliased to slot `j` *is* (at the value
level) component `j` of the document, and carries no occurrence alias. -/
theorem detectionsProv_selfAlias_val (cbom : Json) (dets : List Det)
    (h : detectionsProvOf cbom = .ok dets) (d : Det) (hd : d ∈ dets) (j : Nat)
    (hself : d.selfAlias = some j) :
    (componentsOf cbom).get? j = some d.val ∧ d.occAlias = none := by
  obtain ⟨dss, hdss, rfl⟩ := detectionsProv_parts cbom dets h
  obtain ⟨seg, hseg, hdseg⟩ := List.mem_flatten.mp hd
  obtain ⟨i0, hi0⟩ := List.get?_of_mem hseg
  obtain ⟨x, hx, hfx⟩ := mapME_get?_rev _ _ _ hdss i0 seg hi0
  rw [enumList_get?] at hx
  cases hc : (componentsOf cbom).get? i0 with
  | none => rw [hc] at hx; simp at hx
  | some c0 =>
      rw [hc] at hx
      simp only [Option.map_some', Option.some.injEq] at hx
      subst hx
      rcases flattenComponentProv_selfAlias i0 c0 seg hfx d hdseg with hnone | ⟨hval, hsa, hocc, _⟩
      · rw [hnone] at hself; cases hself
      · rw [hsa] at hself
        injection hself with hij
        subst hij
        exact ⟨by rw [hc, hval], hocc⟩

/-- The zero-occurrence-branch detection of component `i` is in the
detection list, as the component itself with the self-alias marker. -/
theorem detectionsProv_mem_noOcc (cbom : Json) (dets : List Det) (i : Nat) (component : Json)
    (h : detectionsProvOf cbom = .ok dets)
    (hc : (componentsOf cbom).get? i = some component)
    (hty : Json.hasOwnB component "type" = true)
    (hcr : Json.strEq "cryptographic-asset" (Json.jgetD component "type") = true)
    (hocc : occurrencesOf component = .ok none) :
    (⟨component, some i, none⟩ : Det) ∈ dets := by
  obtain ⟨dss, hdss, rfl⟩ := detectionsProv_parts cbom dets h
  have hx : (enumList (componentsOf cbom)).get? i = some (i, component) := by
    rw [enumList_get?, hc]; rfl
  obtain ⟨seg, hseg, hfseg⟩ := (mapME_get? _ _ _ hdss).2 i (i, component) hx
  have hseg2 : flattenComponentProv i component = .ok seg := hfseg
  rw [flattenComponentProv_noOcc i component hty hcr hocc] at hseg2
  injection hseg2 with h1
  exact List.mem_flatten.mpr ⟨seg, List.get?_mem hseg, by rw [← h1]; simp⟩

theorem stripDetectionName_at (component : Json) (s : String)
    (hobj : ∃ fs, component = .obj fs)
    (hname : Json.jget component "name" = some (.str s))
    (hat : s.toList.contains '@' = true) :
    stripDetectionName component = .ok (Json.objSet component "name" (.str (stripAtSuffix s))) := by
  obtain ⟨fs, rfl⟩ := hobj
  have hown : Json.hasOwnB (.obj fs) "name" = true := by
    simp only [Json.hasOwnB, Json.jget] at hname ⊢
    rw [hname]
    rfl
  have hgd : Json.jgetD (.obj fs) "name" = .str s := by
    simp only [Json.jgetD, hname]
    rfl
  simp only [stripDetectionName, hown, hgd, hat]
  simp only [if_true]

/-- After name stripping, the detection found for self-alias slot `i` is
the stripped version of component `i`. -/
theorem stripped_find_selfAlias (cbom : Json) (dets stripped : List Det) (i : Nat)
    (component : Json) (s : String)
    (hdets : detectionsProvOf cbom = .ok dets)
    (hstr : mapME (fun d =>
        match stripDetectionName d.val with
        | .error e => .error e
        | .ok v => .ok (⟨v, d.selfAlias, d.occAlias⟩ : Det)) dets = .ok stripped)
    (hc : (componentsOf cbom).get? i = some component)
    (hty : Json.hasOwnB component "type" = true)
    (hcr : Json.strEq "cryptographic-asset" (Json.jgetD component "type") = true)
    (hocc : occurrencesOf component = .ok none)
    (hname : Json.jget component "name" = some (.str s))
    (hat : s.toList.contains '@' = true) :
    stripped.find? (fun d => d.selfAlias = some i)
      = some ⟨Json.objSet component "name" (.str (stripAtSuffix s)), some i, none⟩ := by
  have hobj : ∃ fs, component = .obj fs := hasOwnB_obj hty
  have hstripc : stripDetectionName component
      = .ok (Json.objSet component "name" (.str (stripAtSuffix s))) :=
    stripDetectionName_at component s hobj hname hat
  have hmem : (⟨component, some i, none⟩ : Det) ∈ dets :=
    detectionsProv_mem_noOcc cbom dets i component hdets hc hty hcr hocc
  obtain ⟨y, hymem, hy⟩ := mapME_mem _ _ _ hstr _ hmem
  have hyval : y = ⟨Json.objSet component "name" (.str (stripAtSuffix s)), some i, none⟩ := by
    rw [hstripc] at hy
    injection hy with h1
    exact h1.symm
  have hpy : (fun d : Det => decide (d.selfAlias = some i)) y = true := by
    simp [hyval]
  have hsome : (stripped.find? (fun d => d.selfAlias = some i)).isSome := by
    rw [List.find?_isSome]
    exact ⟨y, hymem, hpy⟩
  obtain ⟨z, hz⟩ := Option.isSome_iff_exists.mp hsome
  have hzmem := List.mem_of_find?_eq_some hz
  have hzp := List.find?_some hz
  have hzsa : z.selfAlias = some i := by simpa using hzp
  obtain ⟨pre, hpremem, hpre⟩ := mapME_mem_rev _ _ _ hstr z hzmem
  have hparts : stripDetectionName pre.val = .ok z.val ∧
      pre.selfAlias = z.selfAlias ∧ pre.occAlias = z.occAlias := by
    cases hsv : stripDetectionName pre.val with
    | error e => rw [hsv] at hpre; cases hpre
    | ok v =>
        rw [hsv] at hpre
        injection hpre with h1
        refine ⟨by rw [← h1], by rw [← h1], by rw [← h1]⟩
  have hpresa : pre.selfAlias = some i := by rw [hparts.2.1, hzsa]
  obtain ⟨hpreval, hpreocc⟩ := detectionsProv_selfAlias_val cbom dets hdets pre hpremem i hpresa
  have hpvc : pre.val = component := by
    rw [hc] at hpreval
    injection hpreval with h1
    exact h1.symm
  have hzval : z.val = Json.objSet component "name" (.str (stripAtSuffix s)) := by
    have h1 := hparts.1
    rw [hpvc, hstripc] at h1
    injection h1 with h2
    exact h2.symm
  have hzocc : z.occAlias = none := by rw [← hparts.2.2, hpreocc]
  rw [hz]
  cases z with
  | mk zv zs zo =>
      simp only at hzval hzsa hzocc
      rw [hzval, hzsa, hzocc]

theorem componentsOf_parts (cbom : Json) (i : Nat) (component : Json)
    (hc : (componentsOf cbom).get? i = some component) :
    ∃ cfs comps, cbom = .obj cfs ∧ Json.hasOwnB cbom "components" = true ∧
      Json.jgetD cbom "components" = .arr comps ∧ componentsOf cbom = comps := by
  unfold componentsOf at hc
  split at hc
  · rename_i hown
    split at hc
    · rename_i comps harr
      obtain ⟨cfs, rfl⟩ := hasOwnB_obj hown
      refine ⟨cfs, comps, rfl, hown, harr, ?_⟩
      unfold componentsOf
      rw [if_pos hown, harr]
    · simp at hc
  · simp at hc

theorem componentsOf_objSet (cfs : List (String × Json)) (L : List Json) :
    componentsOf (Json.objSet (.obj cfs) "components" (.arr L)) = L := by
  unfold componentsOf
  rw [if_pos (hasOwnB_objSet_self cfs "components" (.arr L))]
  have h : Json.jgetD (Json.objSet (.obj cfs) "components" (.arr L)) "components" = .arr L := by
    rw [Json.jgetD, jget_objSet_self]
    rfl
  rw [h]

/-- C9 (amended): every cryptographic-asset component that takes the
flattener's no-occurrence branch (its `evidence.occurrences` is absent or
not an array — note a present-but-*empty* array takes the occurrence
branch and emits nothing, see the counterexample) contributes the very
component object as its detection (`selfAlias` marker), not a clone; and
consequently, when such a component's name contains `"@"`, running
`getDetections` (modelled with its write-back effect by
`getDetectionsResult`) strips the suffix from the name of the component
stored in the loaded document itself. -/
theorem C9_zero_occurrence_detections_alias_document :
    (∀ (cbom : Json) (dets : List Det) (i : Nat) (component : Json),
        detectionsProvOf cbom = .ok dets →
        (componentsOf cbom).get? i = some component →
        Json.hasOwnB component "type" = true →
        Json.strEq "cryptographic-asset" (Json.jgetD component "type") = true →
        occurrencesOf component = .ok none →
        (⟨component, some i, none⟩ : Det) ∈ dets) ∧
    (∀ (cbom : Json) (ds : List Json) (cbom' : Json) (i : Nat) (component : Json) (s : String),
        getDetectionsResult cbom = .ok (ds, cbom') →
        (componentsOf cbom).get? i = some component →
        Json.hasOwnB component "type" = true →
        Json.strEq "cryptographic-asset" (Json.jgetD component "type") = true →
        occurrencesOf component = .ok none →
        Json.jget component "name" = some (.str s) →
        s.toList.contains '@' = true →
        (componentsOf cbom').get? i
          = some (Json.objSet component "name" (.str (stripAtSuffix s)))) := by
  constructor
  · intro cbom dets i component h hc hty hcr hocc
    exact detectionsProv_mem_noOcc cbom dets i component h hc hty hcr hocc
  · intro cbom ds cbom' i component s h hc hty hcr hocc hname hat
    unfold getDetectionsResult at h
    split at h
    · simp at h
    · rename_i dets hdets
      split at h
      · simp at h
      · rename_i stripped hstr
        injection h with h1
        rw [Prod.mk.injEq] at h1
        obtain ⟨hds, hcb⟩ := h1
        subst hcb
        obtain ⟨cfs, comps, rfl, hown, hjg, hcomps⟩ := componentsOf_parts _ i component hc
        rw [hcomps] at hc
        rw [hcomps, componentsOf_objSet, List.get?_map, enumList_get?, hc]
        simp only [Option.map_some', Option.some.injEq]
        have hfind := stripped_find_selfAlias (.obj cfs) dets stripped i component s hdets hstr
          (by rw [hcomps]; exact hc) hty hcr hocc hname hat
        simp only [hfind]

/-- C9 counterexample: a cryptographic-asset component with zero
occurrences — its `evidence.occurrences` is a present, *empty* array — has
no detection emitted at all (`forEach` over an empty array), so "the
detection emitted … is the very component object" fails for it: the
detection list of the whole document is empty. -/
theorem C9_counterexample :
    getDetectionsFromCbom (some (.obj [("components", .arr [c5emptyOccComp])])) = [] ∧
    detectionsProvOf (.obj [("components", .arr [c5emptyOccComp])]) = .ok [] := by
  exact ⟨by decide, by decide⟩

def c9comp : Json :=
  .obj [("type", .str "cryptographic-asset"), ("bom-ref", .str "z"),
        ("name", .str "AES@xyz"), ("cryptoProperties", .obj [])]

def c9cbom : Json := .obj [("components", .arr [c9comp])]

def c9stripped : Json :=
  .obj [("type", .str "cryptographic-asset"), ("bom-ref", .str "z"),
        ("name", .str "AES"), ("cryptoProperties", .obj [])]

def c9cbomAfter : Json := .obj [("components", .arr [c9stripped])]

/-- Witness for C9: on the concrete document whose only component is a
no-occurrence asset named `"AES@xyz"`, the document after `getDetections`
carries the stripped name `"AES"`. -/
theorem C9_witness :
    (componentsOf c9cbomAfter).get? 0
      = some (Json.objSet c9comp "name" (.str (stripAtSuffix "AES@xyz"))) :=
  C9_zero_occurrence_detections_alias_document.2 c9cbom [c9stripped] c9cbomAfter 0 c9comp
    "AES@xyz" (by decide) (by decide) (by decide) (by decide) (by decide) (by decide) (by decide)

/-! ## C1/C2 — the vector-merge machinery of `normalizeVectors`

Invariant: the merged map always consists of the six canonical entries (in
canonical order, with their fixed `fullName`/`description` and non-null
merged fields) followed by the appended non-canonical entries, keyed by
their own (non-null, non-canonical, pairwise-distinct) ids. -/

theorem jcoal_nonNull {a : Option Json} {b : Json} (hb : b ≠ .null) : Json.jcoal a b ≠ .null := by
  cases a with
  | none => exact hb
  | some v =>
      by_cases hv : v = .null
      · simpa [Json.jcoal, hv] using hb
      · simpa [Json.jcoal, hv] using hv

theorem jcoal_some_nonNull {v : Json} (hv : v ≠ .null) (b : Json) :
    Json.jcoal (some v) b = v := by
  simp [Json.jcoal, hv]

theorem jmapGet_append (m1 m2 : JMap) (k : Json) :
    jmapGet (m1 ++ m2) k
      = match jmapGet m1 k with
        | some v => some v
        | none => jmapGet m2 k := by
  induction m1 with
  | nil => simp [jmapGet]
  | cons kv m1 ih =>
      obtain ⟨k', v⟩ := kv
      by_cases hk : k' = k
      · simp [jmapGet, hk]
      · simp [jmapGet, hk, ih]

theorem jmapGet_mem (m : JMap) (k : Json) (v : Json) (h : jmapGet m k = some v) :
    (k, v) ∈ m := by
  induction m with
  | nil => simp [jmapGet] at h
  | cons kv m ih =>
      obtain ⟨k', w⟩ := kv
      by_cases hk : k' = k
      · subst hk
        simp only [jmapGet, eq_self_iff_true, if_true, Option.some.injEq] at h
        simp [h]
      · simp only [jmapGet, if_neg hk] at h
        simp [ih h]

theorem jmapSet_of_get_none (m : JMap) (k v : Json) (h : jmapGet m k = none) :
    jmapSet m k v = m ++ [(k, v)] := by
  induction m with
  | nil => rfl
  | cons kv m ih =>
      obtain ⟨k', w⟩ := kv
      by_cases hk : k' = k
      · subst hk; simp [jmapGet] at h
      · simp only [jmapGet, if_neg hk] at h
        simp [jmapSet, hk, ih h]

theorem jmapSet_append_right (m1 m2 : JMap) (k v : Json) (h : jmapGet m1 k = none) :
    jmapSet (m1 ++ m2) k v = m1 ++ jmapSet m2 k v := by
  induction m1 with
  | nil => rfl
  | cons kv m1 ih =>
      obtain ⟨k', w⟩ := kv
      by_cases hk : k' = k
      · subst hk; simp [jmapGet] at h
      · simp only [jmapGet, if_neg hk] at h
        simp [jmapSet, hk, ih h]

theorem jmapSet_append_left (m1 m2 : JMap) (k v : Json) (h : jmapGet m1 k ≠ none) :
    jmapSet (m1 ++ m2) k v = jmapSet m1 k v ++ m2 := by
  induction m1 with
  | nil => simp [jmapGet] at h
  | cons kv m1 ih =>
      obtain ⟨k', w⟩ := kv
      by_cases hk : k' = k
      · simp [jmapSet, hk]
      · simp only [jmapGet, if_neg hk] at h
        simp [jmapSet, hk, ih h]

theorem mem_jmapSet (m : JMap) (k nv : Json) (kv : Json × Json) (h : kv ∈ jmapSet m k nv) :
    kv ∈ m ∨ kv = (k, nv) := by
  induction m with
  | nil => simpa [jmapSet] using h
  | cons kw m ih =>
      obtain ⟨k', w⟩ := kw
      by_cases hk : k' = k
      · simp only [jmapSet, if_pos hk, List.mem_cons] at h
        rcases h with h | h
        · exact Or.inr h
        · exact Or.inl (List.mem_cons_of_mem _ h)
      · simp only [jmapSet, if_neg hk, List.mem_cons] at h
        rcases h with h | h
        · exact Or.inl (by simp [h])
        · rcases ih h with h | h
          · exact Or.inl (List.mem_cons_of_mem _ h)
          · exact Or.inr h

theorem jmapSet_keys (m : JMap) (k nv : Json) (h : jmapGet m k ≠ none) :
    (jmapSet m k nv).map Prod.fst = m.map Prod.fst := by
  induction m with
  | nil => simp [jmapGet] at h
  | cons kw m ih =>
      obtain ⟨k', w⟩ := kw
      by_cases hk : k' = k
      · subst hk; simp [jmapSet]
      · simp only [jmapGet, if_neg hk] at h
        simp [jmapSet, hk, ih h]

/-- A merged canonical entry: the fixed id/fullName/description of its
definition, the eight keys in canonical order, non-null merged fields. -/
def canonEntry (d : VecDef) (v : Json) : Prop :=
  ∃ nm st sv ur nt, nm ≠ Json.null ∧ st ≠ Json.null ∧ sv ≠ Json.null ∧
    ur ≠ Json.null ∧ nt ≠ Json.null ∧
    v = .obj [("id", .str d.id), ("name", nm), ("fullName", .str d.fullName),
              ("description", .str d.description), ("status", st), ("severity", sv),
              ("urgency", ur), ("notes", nt)]

/-- An appended non-canonical entry: keyed by its own non-null,
non-canonical id, six keys in the merge order, non-null fields. -/
def extraEntry (k v : Json) : Prop :=
  k ≠ Json.null ∧ (∀ d ∈ QUANTUM_VECTOR_DEFINITIONS, k ≠ .str d.id) ∧
  ∃ nm st sv ur nt, nm ≠ Json.null ∧ st ≠ Json.null ∧ sv ≠ Json.null ∧
    ur ≠ Json.null ∧ nt ≠ Json.null ∧
    v = .obj [("id", k), ("name", nm), ("status", st), ("severity", sv),
              ("urgency", ur), ("notes", nt)]

def canonPair (d : VecDef) (kv : Json × Json) : Prop :=
  kv.1 = .str d.id ∧ canonEntry d kv.2

/-- The shape invariant of the merged vector map. -/
def VGood (m : JMap) : Prop :=
  ∃ cp tail, m = cp ++ tail ∧
    List.Forall₂ canonPair QUANTUM_VECTOR_DEFINITIONS cp ∧
    (∀ kv ∈ tail, extraEntry kv.1 kv.2) ∧
    (tail.map Prod.fst).Nodup

/-- The initial merged map (`new Map(fallback.map(v => [v.id, {...v}]))`)
in assoc-list form. -/
def initOf (defs : List VecDef) : JMap :=
  defs.map (fun d => (Json.str d.id, defaultVectorJson d))

theorem mergeKey_nonNull (m : JMap) (v : Json) : mergeKey m v ≠ Json.null :=
  jcoal_nonNull (jcoal_nonNull (by simp))

theorem spreadUpdateVec_canon (d : VecDef) (base v : Json) (h : canonEntry d base) :
    canonEntry d (spreadUpdateVec base v) := by
  obtain ⟨nm, st, sv, ur, nt, hnm, hst, hsv, hur, hnt, rfl⟩ := h
  exact ⟨Json.jcoal (Json.jget v "name") nm, Json.jcoal (Json.jget v "status") st,
    Json.jcoal (Json.jget v "severity") sv, Json.jcoal (Json.jget v "urgency") ur,
    Json.jcoal (Json.jget v "notes") nt,
    jcoal_nonNull hnm, jcoal_nonNull hst, jcoal_nonNull hsv, jcoal_nonNull hur,
    jcoal_nonNull hnt, rfl⟩

theorem spreadUpdateVec_extra (k base v : Json) (h : extraEntry k base) :
    extraEntry k (spreadUpdateVec base v) := by
  obtain ⟨hknn, hknc, nm, st, sv, ur, nt, hnm, hst, hsv, hur, hnt, rfl⟩ := h
  exact ⟨hknn, hknc, Json.jcoal (Json.jget v "name") nm, Json.jcoal (Json.jget v "status") st,
    Json.jcoal (Json.jget v "severity") sv, Json.jcoal (Json.jget v "urgency") ur,
    Json.jcoal (Json.jget v "notes") nt,
    jcoal_nonNull hnm, jcoal_nonNull hst, jcoal_nonNull hsv, jcoal_nonNull hur,
    jcoal_nonNull hnt, rfl⟩

theorem spreadUpdateVec_fresh (k v : Json) (hknn : k ≠ Json.null)
    (hknc : ∀ d ∈ QUANTUM_VECTOR_DEFINITIONS, k ≠ .str d.id) :
    extraEntry k (spreadUpdateVec (freshBase k v) v) := by
  refine ⟨hknn, hknc, Json.jcoal (Json.jget v "name") (Json.jcoal (Json.jget v "name") k),
    Json.jcoal (Json.jget v "status") NA, Json.jcoal (Json.jget v "severity") NA,
    Json.jcoal (Json.jget v "urgency") NA, Json.jcoal (Json.jget v "notes") NA,
    jcoal_nonNull (jcoal_nonNull hknn), jcoal_nonNull (by simp [NA]),
    jcoal_nonNull (by simp [NA]), jcoal_nonNull (by simp [NA]),
    jcoal_nonNull (by simp [NA]), rfl⟩

theorem canonDefs_id_inj :
    ∀ d ∈ QUANTUM_VECTOR_DEFINITIONS, ∀ d' ∈ QUANTUM_VECTOR_DEFINITIONS,
      d.id = d'.id → d = d' := by decide

theorem canonPart_get_none {defs : List VecDef} {cp : JMap}
    (h : List.Forall₂ canonPair defs cp) (k : Json) (hk : ∀ d ∈ defs, k ≠ .str d.id) :
    jmapGet cp k = none := by
  induction h with
  | nil => rfl
  | cons hpair hrest ih =>
      rename_i d kvp defs' cp'
      obtain ⟨hkey, _⟩ := hpair
      have hne : kvp.1 ≠ k := by
        rw [hkey]
        exact fun hc => hk d (by simp) hc.symm
      obtain ⟨k0, v0⟩ := kvp
      simp only at hne
      simp only [jmapGet, if_neg hne]
      exact ih (fun d' hd' => hk d' (by simp [hd']))

theorem canonPart_get_some {defs : List VecDef} {cp : JMap}
    (h : List.Forall₂ canonPair defs cp) (k base : Json) (hget : jmapGet cp k = some base) :
    ∃ d ∈ defs, k = .str d.id ∧ canonEntry d base := by
  induction h with
  | nil => simp [jmapGet] at hget
  | cons hpair hrest ih =>
      rename_i d kvp defs' cp'
      obtain ⟨k0, v0⟩ := kvp
      obtain ⟨hkey, hentry⟩ := hpair
      simp only at hkey hentry
      by_cases hk : k0 = k
      · subst hk
        simp only [jmapGet, eq_self_iff_true, if_true, Option.some.injEq] at hget
        exact ⟨d, by simp, hkey, hget ▸ hentry⟩
      · simp only [jmapGet, if_neg hk] at hget
        obtain ⟨d', hd', hk', he'⟩ := ih hget
        exact ⟨d', by simp [hd'], hk', he'⟩

theorem canonPart_get_canonical {defs : List VecDef} {cp : JMap}
    (h : List.Forall₂ canonPair defs cp) (d : VecDef) (hd : d ∈ defs) :
    jmapGet cp (.str d.id) ≠ none := by
  induction h with
  | nil => simp at hd
  | cons hpair hrest ih =>
      rename_i d0 kvp defs' cp'
      obtain ⟨k0, v0⟩ := kvp
      obtain ⟨hkey, _⟩ := hpair
      simp only at hkey
      by_cases hk : k0 = Json.str d.id
      · simp [jmapGet, hk]
      · simp only [jmapGet, if_neg hk]
        rcases List.mem_cons.mp hd with hd0 | hd'
        · exact absurd (by rw [hkey, hd0]) hk
        · exact ih hd'

theorem canonPart_set {defs : List VecDef} {cp : JMap}
    (h : List.Forall₂ canonPair defs cp) (k nv : Json) (hsome : jmapGet cp k ≠ none)
    (hnv : ∀ d ∈ defs, k = .str d.id → canonEntry d nv) :
    List.Forall₂ canonPair defs (jmapSet cp k nv) := by
  induction h with
  | nil => simp [jmapGet] at hsome
  | cons hpair hrest ih =>
      rename_i d kvp defs' cp'
      obtain ⟨k0, v0⟩ := kvp
      obtain ⟨hkey, hentry⟩ := hpair
      simp only at hkey hentry
      by_cases hk : k0 = k
      · subst hk
        simp only [jmapSet, if_pos rfl]
        exact List.Forall₂.cons ⟨hkey, hnv d (by simp) (by rw [← hkey])⟩ hrest
      · simp only [jmapSet, if_neg hk]
        simp only [jmapGet, if_neg hk] at hsome
        exact List.Forall₂.cons ⟨hkey, hentry⟩
          (ih hsome (fun d' hd' hk' => hnv d' (by simp [hd']) hk'))

theorem jmapGet_none_keys (m : JMap) (k : Json) (h : jmapGet m k = none) :
    k ∉ m.map Prod.fst := by
  induction m with
  | nil => simp
  | cons kv m ih =>
      obtain ⟨k0, v0⟩ := kv
      by_cases hk : k0 = k
      · subst hk; simp [jmapGet] at h
      · simp only [jmapGet, if_neg hk] at h
        simp only [List.map_cons, List.mem_cons]
        rintro (hc | hc)
        · exact hk hc.symm
        · exact ih h hc

theorem VGood_mergeStep (m : JMap) (v : Json) (h : VGood m) : VGood (mergeStep m v) := by
  by_cases hguard : (!(Json.truthy v) || !(Json.typeofObject v)) = true
  · have he : mergeStep m v = m := by
      unfold mergeStep; rw [if_pos hguard]
    rw [he]; exact h
  · have he : mergeStep m v
        = jmapSet m (mergeKey m v)
            (spreadUpdateVec ((jmapGet m (mergeKey m v)).getD (freshBase (mergeKey m v) v)) v) := by
      unfold mergeStep; rw [if_neg hguard]
    obtain ⟨cp, tail, rfl, hcp, htail, hnodup⟩ := h
    rw [he]
    have hknn : mergeKey (cp ++ tail) v ≠ Json.null := mergeKey_nonNull _ _
    rw [jmapGet_append]
    cases hcpg : jmapGet cp (mergeKey (cp ++ tail) v) with
    | some base =>
        simp only [Option.getD_some]
        obtain ⟨d0, hd0mem, hd0id, hd0entry⟩ := canonPart_get_some hcp _ base hcpg
        rw [jmapSet_append_left _ _ _ _ (by rw [hcpg]; simp)]
        refine ⟨_, tail, rfl, ?_, htail, hnodup⟩
        apply canonPart_set hcp _ _ (by rw [hcpg]; simp)
        intro d hdmem hdid
        have hdd : d = d0 := by
          apply canonDefs_id_inj d hdmem d0 hd0mem
          rw [hd0id] at hdid
          injection hdid with hii
          exact hii.symm
        rw [hdd]
        exact spreadUpdateVec_canon d0 base v hd0entry
    | none =>
        cases htg : jmapGet tail (mergeKey (cp ++ tail) v) with
        | some base =>
            simp only [Option.getD_some]
            have hmem := jmapGet_mem _ _ _ htg
            have hextra := htail _ hmem
            rw [jmapSet_append_right _ _ _ _ hcpg]
            refine ⟨cp, _, rfl, hcp, ?_, ?_⟩
            · intro kv hkv
              rcases mem_jmapSet _ _ _ _ hkv with hold | hnew
              · exact htail _ hold
              · rw [hnew]
                exact spreadUpdateVec_extra _ base v hextra
            · rw [jmapSet_keys _ _ _ (by rw [htg]; simp)]
              exact hnodup
        | none =>
            simp only [Option.getD_none]
            have hgetall : jmapGet (cp ++ tail) (mergeKey (cp ++ tail) v) = none := by
              rw [jmapGet_append, hcpg, htg]
            rw [jmapSet_of_get_none _ _ _ hgetall, List.append_assoc]
            have hknc : ∀ d ∈ QUANTUM_VECTOR_DEFINITIONS, mergeKey (cp ++ tail) v ≠ .str d.id := by
              intro d hd hc
              exact canonPart_get_canonical hcp d hd (by rw [← hc]; exact hcpg)
            refine ⟨cp, _, rfl, hcp, ?_, ?_⟩
            · intro kv hkv
              rcases List.mem_append.mp hkv with hold | hnew
              · exact htail _ hold
              · simp only [List.mem_singleton] at hnew
                rw [hnew]
                exact spreadUpdateVec_fresh _ v hknn hknc
            · rw [List.map_append]
              simp only [List.map_cons, List.map_nil]
              rw [List.nodup_append]
              exact ⟨hnodup, by simp,
                fun a ha => by
                  simp only [List.mem_singleton]
                  intro hc
                  subst hc
                  exact jmapGet_none_keys tail _ htg ha⟩

theorem canonEntry_default (d : VecDef) : canonEntry d (defaultVectorJson d) :=
  ⟨.str d.name, NA, NA, NA, NA, by simp, by simp [NA], by simp [NA], by simp [NA],
   by simp [NA], rfl⟩

theorem forall₂_initOf (defs : List VecDef) : List.Forall₂ canonPair defs (initOf defs) := by
  induction defs with
  | nil => exact .nil
  | cons d defs ih => exact .cons ⟨rfl, canonEntry_default d⟩ ih

theorem VGood_initOf : VGood (initOf QUANTUM_VECTOR_DEFINITIONS) :=
  ⟨initOf QUANTUM_VECTOR_DEFINITIONS, [], by simp,
   forall₂_initOf QUANTUM_VECTOR_DEFINITIONS, by simp, by simp⟩

theorem canonIdsNodup : (QUANTUM_VECTOR_DEFINITIONS.map (·.id)).Nodup := by decide

theorem canonEntry_guard {d : VecDef} {v : Json} (h : canonEntry d v) :
    (!(Json.truthy v) || !(Json.typeofObject v)) = false := by
  obtain ⟨nm, st, sv, ur, nt, _, _, _, _, _, rfl⟩ := h
  rfl

theorem extraEntry_guard {k v : Json} (h : extraEntry k v) :
    (!(Json.truthy v) || !(Json.typeofObject v)) = false := by
  obtain ⟨_, _, nm, st, sv, ur, nt, _, _, _, _, _, rfl⟩ := h
  rfl

theorem mergeKey_canonValue {d : VecDef} {v : Json} (h : canonEntry d v) (m : JMap) :
    mergeKey m v = .str d.id := by
  obtain ⟨nm, st, sv, ur, nt, _, _, _, _, _, rfl⟩ := h
  exact jcoal_some_nonNull (by simp) _

theorem mergeKey_extraValue {k v : Json} (h : extraEntry k v) (m : JMap) :
    mergeKey m v = k := by
  obtain ⟨hknn, _, nm, st, sv, ur, nt, _, _, _, _, _, rfl⟩ := h
  exact jcoal_some_nonNull hknn _

theorem spreadUpdateVec_default_canon (d : VecDef) (v : Json) (h : canonEntry d v) :
    spreadUpdateVec (defaultVectorJson d) v = v := by
  obtain ⟨nm, st, sv, ur, nt, hnm, hst, hsv, hur, hnt, rfl⟩ := h
  show Json.obj [("id", .str d.id), ("name", Json.jcoal (some nm) (.str d.name)),
      ("fullName", .str d.fullName), ("description", .str d.description),
      ("status", Json.jcoal (some st) NA), ("severity", Json.jcoal (some sv) NA),
      ("urgency", Json.jcoal (some ur) NA), ("notes", Json.jcoal (some nt) NA)] = _
  rw [jcoal_some_nonNull hnm, jcoal_some_nonNull hst, jcoal_some_nonNull hsv,
    jcoal_some_nonNull hur, jcoal_some_nonNull hnt]

theorem spreadUpdateVec_fresh_extra (k v : Json) (h : extraEntry k v) :
    spreadUpdateVec (freshBase k v) v = v := by
  obtain ⟨hknn, _, nm, st, sv, ur, nt, hnm, hst, hsv, hur, hnt, rfl⟩ := h
  show Json.obj [("id", k),
      ("name", Json.jcoal (some nm) (Json.jcoal (some nm) k)),
      ("status", Json.jcoal (some st) NA), ("severity", Json.jcoal (some sv) NA),
      ("urgency", Json.jcoal (some ur) NA), ("notes", Json.jcoal (some nt) NA)] = _
  rw [jcoal_some_nonNull hnm, jcoal_some_nonNull hst, jcoal_some_nonNull hsv,
    jcoal_some_nonNull hur, jcoal_some_nonNull hnt]

theorem mergeStep_canonValue (m : JMap) (d : VecDef) (v : Json) (hv : canonEntry d v)
    (hm : jmapGet m (.str d.id) = some (defaultVectorJson d)) :
    mergeStep m v = jmapSet m (.str d.id) v := by
  unfold mergeStep
  rw [canonEntry_guard hv]
  simp only [Bool.false_eq_true, if_false]
  rw [mergeKey_canonValue hv, hm]
  simp only [Option.getD_some]
  rw [spreadUpdateVec_default_canon d v hv]

theorem mergeStep_extraValue (m : JMap) (k v : Json) (hv : extraEntry k v)
    (hm : jmapGet m k = none) :
    mergeStep m v = m ++ [(k, v)] := by
  unfold mergeStep
  rw [extraEntry_guard hv]
  simp only [Bool.false_eq_true, if_false]
  rw [mergeKey_extraValue hv, hm]
  simp only [Option.getD_none]
  rw [spreadUpdateVec_fresh_extra k v hv, jmapSet_of_get_none _ _ _ hm]

theorem replayA {defsR : List VecDef} {cpR : JMap}
    (h : List.Forall₂ canonPair defsR cpR) :
    ∀ (acc : JMap),
      (∀ d ∈ defsR, jmapGet acc (.str d.id) = none) →
      (defsR.map (·.id)).Nodup →
      (cpR.map (·.2)).foldl mergeStep (acc ++ initOf defsR) = acc ++ cpR := by
  induction h with
  | nil => intro acc _ _; simp [initOf]
  | cons hpair hrest ih =>
      rename_i d kvp defs' cp'
      obtain ⟨k0, c0⟩ := kvp
      obtain ⟨hkey, hentry⟩ := hpair
      simp only at hkey hentry
      intro acc hacc hnodup
      simp only [List.map_cons, List.foldl_cons]
      have hm : jmapGet (acc ++ initOf (d :: defs')) (.str d.id)
          = some (defaultVectorJson d) := by
        rw [jmapGet_append, hacc d (by simp)]
        show jmapGet ((Json.str d.id, defaultVectorJson d) :: initOf defs') _ = _
        simp [jmapGet]
      have hstep : mergeStep (acc ++ initOf (d :: defs')) c0
          = (acc ++ [(Json.str d.id, c0)]) ++ initOf defs' := by
        rw [mergeStep_canonValue _ d c0 hentry hm]
        rw [show initOf (d :: defs')
            = (Json.str d.id, defaultVectorJson d) :: initOf defs' from rfl]
        rw [jmapSet_append_right _ _ _ _ (hacc d (by simp))]
        show acc ++ (if Json.str d.id = Json.str d.id then _ else _) = _
        rw [if_pos rfl, List.append_assoc]
        rfl
      rw [hstep]
      have hnodup' : (defs'.map (·.id)).Nodup := (List.nodup_cons.mp hnodup).2
      have hdid : d.id ∉ defs'.map (·.id) := (List.nodup_cons.mp hnodup).1
      have hacc' : ∀ d' ∈ defs', jmapGet (acc ++ [(Json.str d.id, c0)]) (.str d'.id) = none := by
        intro d' hd'
        rw [jmapGet_append, hacc d' (by simp [hd'])]
        have hne : d.id ≠ d'.id := fun hc => hdid (by rw [hc]; exact List.mem_map_of_mem _ hd')
        show (if Json.str d.id = Json.str d'.id then _ else _) = _
        rw [if_neg (fun hc => hne (by injection hc))]
        rfl
      rw [ih _ hacc' hnodup']
      rw [List.append_assoc]
      rw [hkey]
      rfl

theorem replayB : ∀ (tailR acc : JMap),
    (∀ kv ∈ tailR, extraEntry kv.1 kv.2) →
    (∀ kv ∈ tailR, jmapGet acc kv.1 = none) →
    (tailR.map Prod.fst).Nodup →
    (tailR.map (·.2)).foldl mergeStep acc = acc ++ tailR
  | [], acc, _, _, _ => by simp
  | (k, v) :: rest, acc, hall, hacc, hnodup => by
      simp only [List.map_cons, List.foldl_cons]
      rw [mergeStep_extraValue acc k v (hall (k, v) (by simp)) (hacc (k, v) (by simp))]
      have hn : (k :: rest.map Prod.fst).Nodup := hnodup
      have hknotin : k ∉ rest.map Prod.fst := (List.nodup_cons.mp hn).1
      have hacc' : ∀ kv ∈ rest, jmapGet (acc ++ [(k, v)]) kv.1 = none := by
        intro kv hkv
        rw [jmapGet_append, hacc kv (by simp [hkv])]
        have hne : k ≠ kv.1 := fun hc =>
          hknotin (by rw [hc]; exact List.mem_map_of_mem _ hkv)
        show (if k = kv.1 then _ else _) = _
        rw [if_neg hne]
        rfl
      rw [replayB rest (acc ++ [(k, v)]) (fun kv hkv => hall kv (by simp [hkv])) hacc'
        (List.nodup_cons.mp hn).2]
      simp

theorem VGood_replay (m : JMap) (h : VGood m) :
    (m.map (·.2)).foldl mergeStep (initOf QUANTUM_VECTOR_DEFINITIONS) = m := by
  obtain ⟨cp, tail, rfl, hcp, htail, hnodup⟩ := h
  rw [List.map_append, List.foldl_append]
  have hA := replayA hcp [] (fun d _ => rfl) canonIdsNodup
  rw [List.nil_append] at hA
  rw [hA, List.nil_append]
  exact replayB tail cp htail
    (fun kv hkv => canonPart_get_none hcp kv.1 (htail kv hkv).2.1) hnodup

theorem initialMap_eq :
    defaultVectorsJson.foldl (fun m vector => jmapSet m (Json.jgetD vector "id") vector) []
      = initOf QUANTUM_VECTOR_DEFINITIONS := by decide

theorem normalizeVectors_arr (cands : List Json) :
    normalizeVectors (some (.arr cands)) defaultVectorsJson
      = (cands.foldl mergeStep (initOf QUANTUM_VECTOR_DEFINITIONS)).map (·.2) := by
  have h : normalizeVectors (some (.arr cands)) defaultVectorsJson
      = (cands.foldl mergeStep
          (defaultVectorsJson.foldl
            (fun m vector => jmapSet m (Json.jgetD vector "id") vector) [])).map (·.2) := rfl
  rw [h, initialMap_eq]

/-- Every `normalizeVectors` result over the default fallback is the value
list of a `VGood` map. -/
theorem normalizeVectors_cases (cand : Option Json) :
    ∃ M, VGood M ∧ normalizeVectors cand defaultVectorsJson = M.map (·.2) := by
  match cand with
  | some (.arr cands) =>
      refine ⟨cands.foldl mergeStep (initOf QUANTUM_VECTOR_DEFINITIONS), ?_,
        normalizeVectors_arr cands⟩
      exact foldl_preserves VGood mergeStep VGood_mergeStep cands _ VGood_initOf
  | none =>
      exact ⟨initOf QUANTUM_VECTOR_DEFINITIONS, VGood_initOf, by rw [← initialMap_eq]; rfl⟩
  | some .null =>
      exact ⟨initOf QUANTUM_VECTOR_DEFINITIONS, VGood_initOf, by rw [← initialMap_eq]; rfl⟩
  | some (.bool b) =>
      exact ⟨initOf QUANTUM_VECTOR_DEFINITIONS, VGood_initOf, by rw [← initialMap_eq]; rfl⟩
  | some (.num n) =>
      exact ⟨initOf QUANTUM_VECTOR_DEFINITIONS, VGood_initOf, by rw [← initialMap_eq]; rfl⟩
  | some (.str s) =>
      exact ⟨initOf QUANTUM_VECTOR_DEFINITIONS, VGood_initOf, by rw [← initialMap_eq]; rfl⟩
  | some (.obj fs) =>
      exact ⟨initOf QUANTUM_VECTOR_DEFINITIONS, VGood_initOf, by rw [← initialMap_eq]; rfl⟩

/-- Re-normalizing a normalized vector list is the identity. -/
theorem normalizeVectors_idem (cand : Option Json) :
    normalizeVectors (some (.arr (normalizeVectors cand defaultVectorsJson)))
        defaultVectorsJson
      = normalizeVectors cand defaultVectorsJson := by
  obtain ⟨M, hM, hval⟩ := normalizeVectors_cases cand
  rw [hval, normalizeVectors_arr, VGood_replay M hM]

/-- Shape of a normalized QTRL block. -/
def QtrlGood (q : Json) : Prop :=
  ∃ l n c, l ≠ Json.null ∧ n ≠ Json.null ∧ c ≠ Json.null ∧
    q = .obj [("level", l), ("name", n), ("conditions", c)]

theorem normalizeQtrl_good (cand : Option Json) :
    QtrlGood (normalizeQtrl cand defaultQtrlJson) := by
  have hdef : QtrlGood defaultQtrlJson :=
    ⟨NA, NA, NA, by simp [NA], by simp [NA], by simp [NA], rfl⟩
  have hna : (NA : Json) ≠ .null := by simp [NA]
  match cand with
  | none => exact hdef
  | some c =>
      rw [show normalizeQtrl (some c) defaultQtrlJson
          = if !(Json.truthy c) || !(Json.typeofObject c) then defaultQtrlJson
            else .obj [("level", Json.jcoal (Json.jget c "level") NA),
                       ("name", Json.jcoal (Json.jget c "name") NA),
                       ("conditions", Json.jcoal (Json.jget c "conditions") NA)] from rfl]
      split
      · exact hdef
      · exact ⟨_, _, _, jcoal_nonNull hna, jcoal_nonNull hna, jcoal_nonNull hna, rfl⟩

theorem normalizeQtrl_idem {q : Json} (h : QtrlGood q) :
    normalizeQtrl (some q) defaultQtrlJson = q := by
  obtain ⟨l, n, c, hl, hn, hc, rfl⟩ := h
  show Json.obj [("level", Json.jcoal (some l) _), ("name", Json.jcoal (some n) _),
      ("conditions", Json.jcoal (some c) _)] = _
  rw [jcoal_some_nonNull hl, jcoal_some_nonNull hn, jcoal_some_nonNull hc]

/-- Shape of a normalized risk model. -/
def RMGood (r : Json) : Prop :=
  ∃ sl ul nt, nt ≠ Json.null ∧
    r = .obj [("severityLevels", .arr sl), ("urgencyLevels", .arr ul), ("notes", nt)]

theorem normalizeRiskModel_good (cand : Option Json) :
    RMGood (normalizeRiskModel cand defaultRiskModelJson) := by
  have hdef : RMGood defaultRiskModelJson :=
    ⟨_, _, NA, by simp [NA], rfl⟩
  have hna : (NA : Json) ≠ .null := by simp [NA]
  match cand with
  | none => exact hdef
  | some c =>
      rw [show normalizeRiskModel (some c) defaultRiskModelJson
          = if !(Json.truthy c) || !(Json.typeofObject c) then defaultRiskModelJson
            else .obj [("severityLevels",
                          match Json.jget c "severityLevels" with
                          | some (.arr l) => .arr l
                          | _ => defaultScaleJson),
                       ("urgencyLevels",
                          match Json.jget c "urgencyLevels" with
                          | some (.arr l) => .arr l
                          | _ => defaultScaleJson),
                       ("notes", Json.jcoal (Json.jget c "notes") NA)] from rfl]
      split
      · exact hdef
      · have hsl : ∃ sl, (match Json.jget c "severityLevels" with
            | some (.arr l) => Json.arr l
            | _ => defaultScaleJson) = .arr sl := by
          cases hv : Json.jget c "severityLevels" with
          | none => exact ⟨_, rfl⟩
          | some w => cases w <;> exact ⟨_, rfl⟩
        have hul : ∃ ul, (match Json.jget c "urgencyLevels" with
            | some (.arr l) => Json.arr l
            | _ => defaultScaleJson) = .arr ul := by
          cases hv : Json.jget c "urgencyLevels" with
          | none => exact ⟨_, rfl⟩
          | some w => cases w <;> exact ⟨_, rfl⟩
        obtain ⟨sl, hsl⟩ := hsl
        obtain ⟨ul, hul⟩ := hul
        exact ⟨sl, ul, _, jcoal_nonNull hna, by rw [← hsl, ← hul]⟩

theorem normalizeRiskModel_idem {r : Json} (h : RMGood r) :
    normalizeRiskModel (some r) defaultRiskModelJson = r := by
  obtain ⟨sl, ul, nt, hnt, rfl⟩ := h
  show Json.obj [("severityLevels", .arr sl), ("urgencyLevels", .arr ul),
      ("notes", Json.jcoal (some nt) _)] = _
  rw [jcoal_some_nonNull hnt]

/-- Shape and self-stability of a normalized quantum-security block. -/
def QSGood (j : Json) : Prop :=
  ∃ q vs r, j = .obj [("qtrl", q), ("vectors", .arr vs), ("riskModel", r)] ∧
    QtrlGood q ∧ RMGood r ∧
    normalizeQtrl (some q) defaultQtrlJson = q ∧
    normalizeVectors (some (.arr vs)) defaultVectorsJson = vs ∧
    normalizeRiskModel (some r) defaultRiskModelJson = r

theorem defaultVectorsJson_values :
    defaultVectorsJson = (initOf QUANTUM_VECTOR_DEFINITIONS).map (·.2) := by decide

theorem QSGood_default : QSGood defaultQuantumSecurity := by
  refine ⟨defaultQtrlJson, defaultVectorsJson, defaultRiskModelJson, rfl,
    ⟨NA, NA, NA, by simp [NA], by simp [NA], by simp [NA], rfl⟩,
    ⟨_, _, NA, by simp [NA], rfl⟩, ?_, ?_, ?_⟩
  · exact normalizeQtrl_idem ⟨NA, NA, NA, by simp [NA], by simp [NA], by simp [NA], rfl⟩
  · have h1 := normalizeVectors_idem none
    have h0 : normalizeVectors none defaultVectorsJson = defaultVectorsJson := by decide
    rw [h0] at h1
    exact h1
  · exact normalizeRiskModel_idem ⟨_, _, NA, by simp [NA], rfl⟩

theorem getQS_good (cbom : Option Json) : QSGood (getQuantumSecurityFromCbom cbom) := by
  match cbom with
  | none => exact QSGood_default
  | some c =>
      rw [show getQuantumSecurityFromCbom (some c)
          = (if !(Json.truthy c) || !(Json.typeofObject c) then defaultQuantumSecurity
             else
               match Json.jget c "quantumSecurity" with
               | none => defaultQuantumSecurity
               | some q =>
                   if !(Json.truthy q) || !(Json.typeofObject q) then defaultQuantumSecurity
                   else
                     .obj [("qtrl", normalizeQtrl (Json.jget q "qtrl") defaultQtrlJson),
                           ("vectors", .arr (normalizeVectors (Json.jget q "vectors")
                              defaultVectorsJson)),
                           ("riskModel", normalizeRiskModel (Json.jget q "riskModel")
                              defaultRiskModelJson)]) from rfl]
      split
      · exact QSGood_default
      · cases Json.jget c "quantumSecurity" with
        | none => exact QSGood_default
        | some q =>
            show QSGood (if !(Json.truthy q) || !(Json.typeofObject q)
                then defaultQuantumSecurity
                else
                  .obj [("qtrl", normalizeQtrl (Json.jget q "qtrl") defaultQtrlJson),
                        ("vectors", .arr (normalizeVectors (Json.jget q "vectors")
                           defaultVectorsJson)),
                        ("riskModel", normalizeRiskModel (Json.jget q "riskModel")
                           defaultRiskModelJson)])
            split
            · exact QSGood_default
            · exact ⟨_, _, _, rfl, normalizeQtrl_good _, normalizeRiskModel_good _,
                normalizeQtrl_idem (normalizeQtrl_good _),
                normalizeVectors_idem (Json.jget q "vectors"),
                normalizeRiskModel_idem (normalizeRiskModel_good _)⟩

/-- Shape and self-stability of a per-component assessment. -/
def AGood (j : Json) : Prop :=
  ∃ vid svv urv ntv,
    vid ≠ Json.null ∧ svv ≠ Json.null ∧ urv ≠ Json.null ∧ ntv ≠ Json.null ∧
    j = .obj [("vector", vid), ("severity", svv), ("urgency", urv), ("notes", ntv),
              ("vectorName",
                match QUANTUM_VECTOR_DEFINITIONS.find? (fun v => Json.strEq v.id vid) with
                | some d => Json.str d.name
                | none => vid)]

theorem AGood_default : AGood defaultAssessmentJson :=
  ⟨NA, NA, NA, NA, by simp [NA], by simp [NA], by simp [NA], by simp [NA], by decide⟩

theorem getCQA_good (asset : Option Json) : AGood (getComponentQuantumAssessment asset) := by
  match asset with
  | none => exact AGood_default
  | some a =>
      rw [show getComponentQuantumAssessment (some a)
          = (if !(Json.truthy a) || !(Json.typeofObject a) then defaultAssessmentJson
             else
               match Json.jget a "cryptoProperties" with
               | none => defaultAssessmentJson
               | some cp =>
                   if !(Json.truthy cp) || !(Json.typeofObject cp) then defaultAssessmentJson
                   else
                     match Json.jget cp "quantumAssessment" with
                     | none => defaultAssessmentJson
                     | some qa =>
                         if !(Json.truthy qa) || !(Json.typeofObject qa) then
                           defaultAssessmentJson
                         else
                           .obj [("vector", Json.jcoal (Json.jget qa "vector") NA),
                                 ("severity", Json.jcoal (Json.jget qa "severity") NA),
                                 ("urgency", Json.jcoal (Json.jget qa "urgency") NA),
                                 ("notes", Json.jcoal (Json.jget qa "notes") NA),
                                 ("vectorName",
                                   match QUANTUM_VECTOR_DEFINITIONS.find?
                                       (fun v => Json.strEq v.id
                                         (Json.jcoal (Json.jget qa "vector") NA)) with
                                   | some d => Json.str d.name
                                   | none => Json.jcoal (Json.jget qa "vector") NA)]) from rfl]
      have hna : (NA : Json) ≠ .null := by simp [NA]
      split
      · exact AGood_default
      · cases Json.jget a "cryptoProperties" with
        | none => exact AGood_default
        | some cp =>
            show AGood (if !(Json.truthy cp) || !(Json.typeofObject cp)
                then defaultAssessmentJson
                else
                  match Json.jget cp "quantumAssessment" with
                  | none => defaultAssessmentJson
                  | some qa =>
                      if !(Json.truthy qa) || !(Json.typeofObject qa) then
                        defaultAssessmentJson
                      else
                        .obj [("vector", Json.jcoal (Json.jget qa "vector") NA),
                              ("severity", Json.jcoal (Json.jget qa "severity") NA),
                              ("urgency", Json.jcoal (Json.jget qa "urgency") NA),
                              ("notes", Json.jcoal (Json.jget qa "notes") NA),
                              ("vectorName",
                                match QUANTUM_VECTOR_DEFINITIONS.find?
                                    (fun v => Json.strEq v.id
                                      (Json.jcoal (Json.jget qa "vector") NA)) with
                                | some d => Json.str d.name
                                | none => Json.jcoal (Json.jget qa "vector") NA)])
            split
            · exact AGood_default
            · cases Json.jget cp "quantumAssessment" with
              | none => exact AGood_default
              | some qa =>
                  show AGood (if !(Json.truthy qa) || !(Json.typeofObject qa)
                      then defaultAssessmentJson
                      else
                        .obj [("vector", Json.jcoal (Json.jget qa "vector") NA),
                              ("severity", Json.jcoal (Json.jget qa "severity") NA),
                              ("urgency", Json.jcoal (Json.jget qa "urgency") NA),
                              ("notes", Json.jcoal (Json.jget qa "notes") NA),
                              ("vectorName",
                                match QUANTUM_VECTOR_DEFINITIONS.find?
                                    (fun v => Json.strEq v.id
                                      (Json.jcoal (Json.jget qa "vector") NA)) with
                                | some d => Json.str d.name
                                | none => Json.jcoal (Json.jget qa "vector") NA)])
                  split
                  · exact AGood_default
                  · exact ⟨_, _, _, _, jcoal_nonNull hna, jcoal_nonNull hna,
                      jcoal_nonNull hna, jcoal_nonNull hna, rfl⟩

/-- C2: document- and component-level normalization are idempotent.
Feeding the output of `getQuantumSecurityFromCbom` back in as the
`quantumSecurity` block yields the identical result, for every input
(well-formed or malformed); re-applying `getComponentQuantumAssessment` to
a component carrying an already-normalized assessment yields the same
assessment. -/
theorem C2_normalization_idempotent :
    (∀ cbom : Option Json,
        getQuantumSecurityFromCbom
            (some (.obj [("quantumSecurity", getQuantumSecurityFromCbom cbom)]))
          = getQuantumSecurityFromCbom cbom) ∧
    (∀ asset : Option Json,
        getComponentQuantumAssessment
            (some (.obj [("cryptoProperties",
                .obj [("quantumAssessment", getComponentQuantumAssessment asset)])]))
          = getComponentQuantumAssessment asset) := by
  constructor
  · intro cbom
    obtain ⟨q, vs, r, hout, _, _, hqi, hvi, hri⟩ := getQS_good cbom
    rw [hout]
    calc getQuantumSecurityFromCbom
          (some (.obj [("quantumSecurity",
            .obj [("qtrl", q), ("vectors", .arr vs), ("riskModel", r)])]))
        = .obj [("qtrl", normalizeQtrl (some q) defaultQtrlJson),
                ("vectors", .arr (normalizeVectors (some (.arr vs)) defaultVectorsJson)),
                ("riskModel", normalizeRiskModel (some r) defaultRiskModelJson)] := rfl
      _ = .obj [("qtrl", q), ("vectors", .arr vs), ("riskModel", r)] := by
            rw [hqi, hvi, hri]
  · intro asset
    obtain ⟨vid, svv, urv, ntv, hvid, hsvv, hurv, hntv, hout⟩ := getCQA_good asset
    rw [hout]
    calc getComponentQuantumAssessment
          (some (.obj [("cryptoProperties", .obj [("quantumAssessment",
            .obj [("vector", vid), ("severity", svv), ("urgency", urv), ("notes", ntv),
                  ("vectorName",
                    match QUANTUM_VECTOR_DEFINITIONS.find? (fun v => Json.strEq v.id vid) with
                    | some d => Json.str d.name
                    | none => vid)])])]))
        = .obj [("vector", Json.jcoal (some vid) NA),
                ("severity", Json.jcoal (some svv) NA),
                ("urgency", Json.jcoal (some urv) NA),
                ("notes", Json.jcoal (some ntv) NA),
                ("vectorName",
                  match QUANTUM_VECTOR_DEFINITIONS.find?
                      (fun v => Json.strEq v.id (Json.jcoal (some vid) NA)) with
                  | some d => Json.str d.name
                  | none => Json.jcoal (some vid) NA)] := rfl
      _ = _ := by rw [jcoal_some_nonNull hvid, jcoal_some_nonNull hsvv,
            jcoal_some_nonNull hurv, jcoal_some_nonNull hntv]

theorem canon_ids {defs : List VecDef} {cp : JMap}
    (h : List.Forall₂ canonPair defs cp) :
    (cp.map (·.2)).map (fun v => Json.jget v "id")
      = defs.map (fun d => some (Json.str d.id)) := by
  induction h with
  | nil => rfl
  | cons hpair _ ih =>
      rename_i d kv defs' cp'
      obtain ⟨hk, hce⟩ := hpair
      obtain ⟨nm, st, sv, ur, nt, _, _, _, _, _, hv⟩ := hce
      simp only [List.map_cons, List.cons.injEq]
      exact ⟨by rw [hv]; rfl, ih⟩

/-- C1 counterexample: for the CBOM whose `quantumSecurity.vectors` is the
single object `{name: "Hndl"}`, the output vector list of
`getQuantumSecurityFromCbom` has 7 entries, not 6: the input vector matches
no canonical id, its name "Hndl" is NOT matched case-insensitively against
the canonical name "HNDL", and instead of being dropped it is appended as a
seventh entry keyed by its name used verbatim. -/
theorem C1_counterexample :
    (qsVectors (getQuantumSecurityFromCbom (some (.obj [("quantumSecurity",
        .obj [("vectors", .arr [.obj [("name", .str "Hndl")]])])])))).length = 7 ∧
    ((qsVectors (getQuantumSecurityFromCbom (some (.obj [("quantumSecurity",
        .obj [("vectors", .arr [.obj [("name", .str "Hndl")]])])])))).getD 6
        Json.null).jget "id"
      = some (.str "Hndl") := by decide

/-- C1 (amended): for every CBOM, the vectors list returned by
`getQuantumSecurityFromCbom` splits as six canonical entries — carrying the
canonical ids hndl, authentication, kml, thirdParty, cryptoAgility,
governance, in that order — followed by the appended entries: every
appended entry has a non-null id that matches no canonical id.  Input
vectors are merged by exact id (with `vector.id ?? vector.name ??
"vector-N"` as the key, so a name is used verbatim as the key when the id
is absent, never matched case-insensitively), and vectors matching no
canonical entry are appended to the output, not dropped. -/
theorem C1_normalizer_canonical_prefix_appends_rest :
    ∀ cbom : Option Json,
      ∃ canon extras,
        qsVectors (getQuantumSecurityFromCbom cbom) = canon ++ extras ∧
        canon.map (fun v => Json.jget v "id")
          = QUANTUM_VECTOR_DEFINITIONS.map (fun d => some (Json.str d.id)) ∧
        canon.length = 6 ∧
        (∀ e ∈ extras, ∃ k, Json.jget e "id" = some k ∧ k ≠ Json.null ∧
          ∀ d ∈ QUANTUM_VECTOR_DEFINITIONS, k ≠ .str d.id) := by
  intro cbom
  obtain ⟨q, vs, r, hout, _, _, _, hvi, _⟩ := getQS_good cbom
  obtain ⟨M, hM, hval⟩ := normalizeVectors_cases (some (.arr vs))
  have hvs : vs = M.map (·.2) := by rw [← hvi, hval]
  obtain ⟨cp, tail, hMsplit, hcp, htail, _⟩ := hM
  refine ⟨cp.map (·.2), tail.map (·.2), ?_, canon_ids hcp, ?_, ?_⟩
  · rw [hout]
    show vs = cp.map (·.2) ++ tail.map (·.2)
    rw [hvs, hMsplit, List.map_append]
  · rw [List.length_map, ← hcp.length_eq]
    rfl
  · intro e he
    rw [List.mem_map] at he
    obtain ⟨kv, hkv, rfl⟩ := he
    obtain ⟨hknn, hknc, nm, st, sv, ur, nt, _, _, _, _, _, hv⟩ := htail kv hkv
    exact ⟨kv.1, by rw [hv]; rfl, hknn, hknc⟩
